import Mathlib

/-!
Verification of the `wsbps` binary codec core (`src/io.rs`, `src/packets.rs`).

Byte streams are modelled as `List Nat`, each element standing for one `u8`
and reduced modulo `256` at the point where the stream is read or written.
Readers are total functions `Bytes → Except Err (α × Bytes)` returning the
decoded value together with the unconsumed suffix of the stream.  Writers
take a `Sink` — a buffer plus an optional remaining capacity modelling a
fallible `io::Write` — and return `WRes`, which distinguishes a normal
return, a returned error, and a panic (an `unwrap`/`expect` firing in the
source).  Machine integers are `Nat`/`Int` with explicit `% 2 ^ w` where
the source truncates.
-/

set_option maxRecDepth 4000

namespace Wsbps

/-- Byte streams: each element models a `u8`. -/
abbrev Bytes := List Nat

/-- Error values of the codec, one constructor per failure site in the
source: `io::Error` from the underlying source/sink, the `anyhow::bail!` /
`anyhow::anyhow!` messages of `src/io.rs` and `src/packets.rs`, and the
`.context(...)` wrappers added around inner errors. -/
inductive Err : Type where
  | ioErr : Err
  | invalidBoolean : Err
  | varIntOverflow : Err
  | varLongOverflow : Err
  | stringLengthExceeded : Nat → Nat → Err
  | invalidUtf8 : Err
  | unknownPacketId : Nat → Err
  | invalidEnumValue : Err
  | context : String → Err → Err
deriving DecidableEq, Repr

/-- Models `read_u8`: take one byte from the source, failing with an io
error at end of stream (src/io.rs line 32). -/
def readU8 : Bytes → Except Err (Nat × Bytes)
  | [] => .error .ioErr
  | b :: rest => .ok (b % 256, rest)

/-- The loop of `impl Readable for VarInt` (src/io.rs lines 114-132),
translated byte for byte: mask the low 7 bits, accumulate them with
`overflowing_shl` (shift amount taken modulo 32, result truncated to 32
bits), advance `byte_offset` by 7, bail with the overflow error once the
offset exceeds 35, and stop at a byte whose continuation bit is clear. -/
def varIntLoop : Nat → Nat → Bytes → Except Err (Nat × Bytes)
  | _, _, [] => .error .ioErr
  | byteOffset, result, b :: rest =>
    let read := b % 256
    let value := read &&& 127
    let result2 := result ||| (value <<< (byteOffset % 32)) % 2 ^ 32
    let byteOffset2 := byteOffset + 7
    if byteOffset2 > 35 then .error .varIntOverflow
    else if read &&& 128 = 0 then .ok (result2, rest)
    else varIntLoop byteOffset2 result2 rest

/-- `VarInt::read` (src/io.rs lines 114-132). -/
def varIntRead (s : Bytes) : Except Err (Nat × Bytes) := varIntLoop 0 0 s

/-- The loop of `impl Readable for VarLong` (src/io.rs lines 159-177):
as `varIntLoop` but over a 64-bit accumulator, with the shift amount
taken modulo 64 and the bail threshold at offset 70. -/
def varLongLoop : Nat → Nat → Bytes → Except Err (Nat × Bytes)
  | _, _, [] => .error .ioErr
  | byteOffset, result, b :: rest =>
    let read := b % 256
    let value := read &&& 127
    let result2 := result ||| (value <<< (byteOffset % 64)) % 2 ^ 64
    let byteOffset2 := byteOffset + 7
    if byteOffset2 > 70 then .error .varLongOverflow
    else if read &&& 128 = 0 then .ok (result2, rest)
    else varLongLoop byteOffset2 result2 rest

/-- `VarLong::read` (src/io.rs lines 159-177). -/
def varLongRead (s : Bytes) : Except Err (Nat × Bytes) := varLongLoop 0 0 s

/-- A byte sink: the bytes written so far plus an optional remaining
capacity.  `cap = none` models an infallible sink such as `Vec<u8>`;
`cap = some k` models an `io::Write` implementation whose writes start
failing after `k` more bytes. -/
structure Sink : Type where
  buf : List Nat
  cap : Option Nat
deriving DecidableEq, Repr

/-- One `write_u8` call on the sink; `none` is an io failure. -/
def Sink.writeU8 (o : Sink) (b : Nat) : Option Sink :=
  match o.cap with
  | none => some ⟨o.buf ++ [b % 256], none⟩
  | some 0 => none
  | some (k + 1) => some ⟨o.buf ++ [b % 256], some k⟩

/-- `write_all`: write every byte of the slice or fail. -/
def Sink.writeAll (o : Sink) (bs : List Nat) : Option Sink :=
  match bs with
  | [] => some o
  | b :: rest =>
    match o.writeU8 b with
    | none => none
    | some o2 => o2.writeAll rest

/-- Outcome of a `Writable::write` call: normal return, returned error,
or a panic (an `unwrap`/`expect` in the source firing). -/
inductive WRes : Type where
  | ok : Sink → WRes
  | err : Err → WRes
  | panic : WRes
deriving DecidableEq, Repr

/-- The loop of `impl Writable for VarInt` (src/io.rs lines 96-112): emit
the low 7 bits, set the continuation bit when the remaining value is
non-zero, and `unwrap()` the sink write — a sink failure is a panic, not a
returned error. -/
def varIntWrite (x : Nat) (o : Sink) : WRes :=
  match o.writeU8 (if x >>> 7 ≠ 0 then x &&& 127 ||| 128 else x &&& 127) with
  | none => .panic
  | some o2 => if x >>> 7 = 0 then .ok o2 else varIntWrite (x >>> 7) o2
termination_by x
decreasing_by
  have hx : x >>> 7 = x / 2 ^ 7 := Nat.shiftRight_eq_div_pow x 7
  simp only [hx] at *
  omega

/-- The loop of `impl Writable for VarLong` (src/io.rs lines 141-156);
identical shape to the `VarInt` writer, including the `unwrap()`. -/
def varLongWrite (x : Nat) (o : Sink) : WRes :=
  match o.writeU8 (if x >>> 7 ≠ 0 then x &&& 127 ||| 128 else x &&& 127) with
  | none => .panic
  | some o2 => if x >>> 7 = 0 then .ok o2 else varLongWrite (x >>> 7) o2
termination_by x
decreasing_by
  have hx : x >>> 7 = x / 2 ^ 7 := Nat.shiftRight_eq_div_pow x 7
  simp only [hx] at *
  omega

/-- The byte sequence a writer produces on an infallible sink. -/
def encPure {α : Type} (w : α → Sink → WRes) (v : α) : Bytes :=
  match w v ⟨[], none⟩ with
  | .ok o => o.buf
  | _ => []

/-- `impl Writable for u8` (src/io.rs lines 23-28): one byte, sink
failure propagated with `?`. -/
def u8Write (n : Nat) (o : Sink) : WRes :=
  match o.writeU8 n with
  | none => .err .ioErr
  | some o2 => .ok o2

/-- `impl Readable for u8` (src/io.rs lines 30-34). -/
def u8Read (s : Bytes) : Except Err (Nat × Bytes) := readU8 s

/-- `impl Writable for i8` (src/io.rs lines 36-41): the value is an `i8`
in `[-128, 128)`, written as its two's-complement byte. -/
def i8Write (v : Int) (o : Sink) : WRes :=
  match o.writeU8 (v % 256).toNat with
  | none => .err .ioErr
  | some o2 => .ok o2

/-- `impl Readable for i8` (src/io.rs lines 43-47): read one byte and
reinterpret it as a signed 8-bit value. -/
def i8Read (s : Bytes) : Except Err (Int × Bytes) :=
  match readU8 s with
  | .error e => .error e
  | .ok (b, rest) => .ok (if b < 128 then (b : Int) else (b : Int) - 256, rest)

/-- `impl Writable for bool` (src/io.rs lines 51-56): one byte,
`*self as u8`, sink failure propagated with `?`. -/
def boolWrite (v : Bool) (o : Sink) : WRes :=
  match o.writeU8 (if v then 1 else 0) with
  | none => .err .ioErr
  | some o2 => .ok o2

/-- `impl Readable for bool` (src/io.rs lines 58-67): `0` is `false`,
`1` is `true`, anything else fails with the invalid-boolean error. -/
def boolRead (s : Bytes) : Except Err (Bool × Bytes) :=
  match readU8 s with
  | .error e => .error e
  | .ok (b, rest) =>
    match b with
    | 0 => .ok (false, rest)
    | 1 => .ok (true, rest)
    | _ => .error .invalidBoolean

/-- Big-endian byte serialization of the low `8 * k` bits of `n`,
as produced by `byteorder`'s `write_u16`/`write_u32`/`write_u64` family
(`generate_rw!`, src/io.rs lines 301-334). -/
def beBytes : Nat → Nat → Bytes
  | 0, _ => []
  | k + 1, n => (n >>> (8 * k)) % 256 :: beBytes k n

/-- Big-endian accumulation of `k` bytes, as performed by `byteorder`'s
`read_u16`/`read_u32`/`read_u64` family; an exhausted source is an io
error. -/
def beReadLoop : Nat → Nat → Bytes → Except Err (Nat × Bytes)
  | 0, acc, s => .ok (acc, s)
  | _ + 1, _, [] => .error .ioErr
  | k + 1, acc, b :: rest => beReadLoop k (acc * 256 + b % 256) rest

/-- `impl Writable for u16` via `generate_rw!` (src/io.rs line 324). -/
def u16Write (n : Nat) (o : Sink) : WRes :=
  match o.writeAll (beBytes 2 n) with
  | none => .err .ioErr
  | some o2 => .ok o2

/-- `impl Readable for u16` via `generate_rw!` (src/io.rs line 324). -/
def u16Read (s : Bytes) : Except Err (Nat × Bytes) := beReadLoop 2 0 s

/-- `impl Writable for u32` via `generate_rw!` (src/io.rs line 325). -/
def u32Write (n : Nat) (o : Sink) : WRes :=
  match o.writeAll (beBytes 4 n) with
  | none => .err .ioErr
  | some o2 => .ok o2

/-- `impl Readable for u32` via `generate_rw!` (src/io.rs line 325). -/
def u32Read (s : Bytes) : Except Err (Nat × Bytes) := beReadLoop 4 0 s

/-- `impl Writable for u64` via `generate_rw!` (src/io.rs line 326). -/
def u64Write (n : Nat) (o : Sink) : WRes :=
  match o.writeAll (beBytes 8 n) with
  | none => .err .ioErr
  | some o2 => .ok o2

/-- `impl Readable for u64` via `generate_rw!` (src/io.rs line 326). -/
def u64Read (s : Bytes) : Except Err (Nat × Bytes) := beReadLoop 8 0 s

/-- Two's-complement reinterpretation of a `w`-bit unsigned value. -/
def toSigned (w n : Nat) : Int :=
  if n < 2 ^ (w - 1) then (n : Int) else (n : Int) - 2 ^ w

/-- `impl Writable for i16` via `generate_rw!` (src/io.rs line 328):
the signed value is serialized as its two's-complement bit pattern,
big-endian. -/
def i16Write (v : Int) (o : Sink) : WRes := u16Write (v % 2 ^ 16).toNat o

/-- `impl Readable for i16` via `generate_rw!` (src/io.rs line 328). -/
def i16Read (s : Bytes) : Except Err (Int × Bytes) :=
  match beReadLoop 2 0 s with
  | .error e => .error e
  | .ok (n, rest) => .ok (toSigned 16 n, rest)

/-- `impl Writable for i32` via `generate_rw!` (src/io.rs line 329). -/
def i32Write (v : Int) (o : Sink) : WRes := u32Write (v % 2 ^ 32).toNat o

/-- `impl Readable for i32` via `generate_rw!` (src/io.rs line 329). -/
def i32Read (s : Bytes) : Except Err (Int × Bytes) :=
  match beReadLoop 4 0 s with
  | .error e => .error e
  | .ok (n, rest) => .ok (toSigned 32 n, rest)

/-- `impl Writable for i64` via `generate_rw!` (src/io.rs line 330). -/
def i64Write (v : Int) (o : Sink) : WRes := u64Write (v % 2 ^ 64).toNat o

/-- `impl Readable for i64` via `generate_rw!` (src/io.rs line 330). -/
def i64Read (s : Bytes) : Except Err (Int × Bytes) :=
  match beReadLoop 8 0 s with
  | .error e => .error e
  | .ok (n, rest) => .ok (toSigned 64 n, rest)

/-- `impl Writable for f32` via `generate_rw!` (src/io.rs line 332):
floats are serialized byte-exactly, big-endian; the value is modelled by
its 32-bit IEEE bit pattern. -/
def f32Write (bits : Nat) (o : Sink) : WRes := u32Write bits o

/-- `impl Readable for f32` via `generate_rw!` (src/io.rs line 332),
modelled on the 32-bit IEEE bit pattern. -/
def f32Read (s : Bytes) : Except Err (Nat × Bytes) := beReadLoop 4 0 s

/-- `impl Writable for f64` via `generate_rw!` (src/io.rs line 333),
modelled on the 64-bit IEEE bit pattern. -/
def f64Write (bits : Nat) (o : Sink) : WRes := u64Write bits o

/-- `impl Readable for f64` via `generate_rw!` (src/io.rs line 333). -/
def f64Read (s : Bytes) : Except Err (Nat × Bytes) := beReadLoop 8 0 s

/-- Modelled from `std`: the recursion of the UTF-8 validity check
performed by `String::from_utf8` (the UTF-8 well-formedness table: no
continuation bytes out of place, no overlong forms, no surrogates,
nothing above `U+10FFFF`).  The first argument is fuel, always called
with at least the list's length; each step consumes at least one byte. -/
def validUtf8Go : Nat → List Nat → Bool
  | 0, l => l.isEmpty
  | _ + 1, [] => true
  | fuel + 1, b :: rest =>
    if b < 128 then validUtf8Go fuel rest
    else if b < 194 then false
    else if b < 224 then
      match rest with
      | c :: r => 128 ≤ c && c < 192 && validUtf8Go fuel r
      | [] => false
    else if b < 240 then
      match rest with
      | c :: d :: r =>
        (if b = 224 then 160 ≤ c && c < 192
         else if b = 237 then 128 ≤ c && c < 160
         else 128 ≤ c && c < 192) &&
        (128 ≤ d && d < 192) && validUtf8Go fuel r
      | _ => false
    else if b < 245 then
      match rest with
      | c :: d :: e :: r =>
        (if b = 240 then 144 ≤ c && c < 192
         else if b = 244 then 128 ≤ c && c < 144
         else 128 ≤ c && c < 192) &&
        (128 ≤ d && d < 192) && (128 ≤ e && e < 192) && validUtf8Go fuel r
      | _ => false
    else false

/-- Modelled from `std`: a byte sequence is valid UTF-8.  A Rust `String`
is modelled as its byte sequence together with this predicate. -/
def validUtf8 (l : List Nat) : Bool := validUtf8Go l.length l

/-- `impl Writable for String` (src/io.rs lines 182-188): a `VarInt`
length prefix (`self.len() as u32`, hence truncated modulo `2 ^ 32`, and
with no maximum-length check) followed by the raw bytes via `write_all`.
The prefix is written by the `VarInt` writer and can therefore panic on a
failing sink; the `write_all` failure is propagated with `?`. -/
def stringWrite (s : List Nat) (o : Sink) : WRes :=
  match varIntWrite (s.length % 2 ^ 32) o with
  | .panic => .panic
  | .err e => .err e
  | .ok o2 =>
    match o2.writeAll s with
    | none => .err .ioErr
    | some o3 => .ok o3

/-- `read_exact`: take exactly `n` bytes from the source or fail. -/
def readExact : Nat → Bytes → Option (List Nat × Bytes)
  | 0, s => some ([], s)
  | _ + 1, [] => none
  | n + 1, b :: rest =>
    match readExact n rest with
    | none => none
    | some (bs, r) => some (b % 256 :: bs, r)

/-- `impl Readable for String` (src/io.rs lines 190-203): read a `VarInt`
length (wrapping its error with a context message), reject lengths above
`i16::MAX = 32767` before touching the string bytes, then read exactly
that many bytes and validate them as UTF-8. -/
def stringRead (s : Bytes) : Except Err (List Nat × Bytes) :=
  match varIntRead s with
  | .error e => .error (.context "invalid string length varint" e)
  | .ok (length, rest) =>
    if length > 32767 then .error (.stringLengthExceeded length 32767)
    else
      match readExact length rest with
      | none => .error .ioErr
      | some (bytes, rest2) =>
        if validUtf8 bytes then .ok (bytes, rest2)
        else .error (.context "string contained invalid utf8 encoding" .invalidUtf8)

/-- The element loop of `impl Writable for Vec<T>` (src/io.rs lines
208-216): each element is written with
`.expect("couldn't write vec contents")`, so an element whose write
returns an error becomes a panic. -/
def vecWriteElems {α : Type} (w : α → Sink → WRes) : List α → Sink → WRes
  | [], o => .ok o
  | x :: xs, o =>
    match w x o with
    | .ok o2 => vecWriteElems w xs o2
    | .err _ => .panic
    | .panic => .panic

/-- `impl Writable for Vec<T>` (src/io.rs lines 208-216): a `VarInt`
count (`self.len() as u32`) followed by the element encodings. -/
def vecWrite {α : Type} (w : α → Sink → WRes) (l : List α) (o : Sink) : WRes :=
  match varIntWrite (l.length % 2 ^ 32) o with
  | .panic => .panic
  | .err e => .err e
  | .ok o2 => vecWriteElems w l o2

/-- The element loop of `impl Readable for Vec<T>` (src/io.rs lines
218-226): `iter::repeat_with(|| T::read(i)).take(length).collect()` reads
elements sequentially and stops at the first error, which is returned
unchanged. -/
def readElems {α : Type} (rd : Bytes → Except Err (α × Bytes)) :
    Nat → Bytes → Except Err (List α × Bytes)
  | 0, s => .ok ([], s)
  | n + 1, s =>
    match rd s with
    | .error e => .error e
    | .ok (x, s2) =>
      match readElems rd n s2 with
      | .error e => .error e
      | .ok (xs, s3) => .ok (x :: xs, s3)

/-- `impl Readable for Vec<T>` (src/io.rs lines 218-226): a `VarInt`
count (error wrapped with a context message) followed by that many
element reads. -/
def vecRead {α : Type} (rd : Bytes → Except Err (α × Bytes)) (s : Bytes) :
    Except Err (List α × Bytes) :=
  match varIntRead s with
  | .error e => .error (.context "invalid vec length varint" e)
  | .ok (n, s2) => readElems rd n s2

/-- `impl Writable for Option<T>` (src/io.rs lines 231-244): a boolean
presence flag followed by the value when present. -/
def optionWrite {α : Type} (w : α → Sink → WRes) (v : Option α) (o : Sink) : WRes :=
  match v with
  | some value =>
    match boolWrite true o with
    | .panic => .panic
    | .err e => .err e
    | .ok o2 => w value o2
  | none => boolWrite false o

/-- `impl Readable for Option<T>` (src/io.rs lines 246-255). -/
def optionRead {α : Type} (rd : Bytes → Except Err (α × Bytes)) (s : Bytes) :
    Except Err (Option α × Bytes) :=
  match boolRead s with
  | .error e => .error e
  | .ok (true, rest) =>
    match rd rest with
    | .error e => .error e
    | .ok (v, rest2) => .ok (some v, rest2)
  | .ok (false, rest) => .ok (none, rest)

/-- A `HashMap<K, V>` value is modelled as its list of key-value entries
(keys pairwise distinct, order irrelevant to the map's semantics). -/
abbrev Entries (κ ν : Type) := List (κ × ν)

/-- Models `HashMap::insert`: replace the value of an existing key, or
add a new entry. -/
def insertKV {κ ν : Type} [DecidableEq κ] : Entries κ ν → κ → ν → Entries κ ν
  | [], k, v => [(k, v)]
  | e :: rest, k, v => if e.1 = k then (k, v) :: rest else e :: insertKV rest k v

/-- The entry loop of `impl Writable for HashMap<K, V>` (src/io.rs lines
272-282): each entry is written as key then value, errors propagated
with `?`. -/
def mapWriteElems {κ ν : Type} (wk : κ → Sink → WRes) (wv : ν → Sink → WRes) :
    Entries κ ν → Sink → WRes
  | [], o => .ok o
  | (k, v) :: rest, o =>
    match wk k o with
    | .panic => .panic
    | .err e => .err e
    | .ok o2 =>
      match wv v o2 with
      | .panic => .panic
      | .err e => .err e
      | .ok o3 => mapWriteElems wk wv rest o3

/-- `impl Writable for HashMap<K, V>` (src/io.rs lines 272-282): a
`VarInt` entry count (`self.len() as u32`) followed by the entries. -/
def mapWrite {κ ν : Type} (wk : κ → Sink → WRes) (wv : ν → Sink → WRes)
    (l : Entries κ ν) (o : Sink) : WRes :=
  match varIntWrite (l.length % 2 ^ 32) o with
  | .panic => .panic
  | .err e => .err e
  | .ok o2 => mapWriteElems wk wv l o2

/-- The entry loop of `impl Readable for HashMap<K, V>` (src/io.rs lines
284-296): read key then value `length` times, inserting each pair into
the map (later entries overwrite earlier ones with the same key). -/
def mapReadLoop {κ ν : Type} [DecidableEq κ]
    (rk : Bytes → Except Err (κ × Bytes)) (rv : Bytes → Except Err (ν × Bytes)) :
    Nat → Entries κ ν → Bytes → Except Err (Entries κ ν × Bytes)
  | 0, acc, s => .ok (acc, s)
  | n + 1, acc, s =>
    match rk s with
    | .error e => .error e
    | .ok (k, s2) =>
      match rv s2 with
      | .error e => .error e
      | .ok (v, s3) => mapReadLoop rk rv n (insertKV acc k v) s3

/-- `impl Readable for HashMap<K, V>` (src/io.rs lines 284-296). -/
def mapRead {κ ν : Type} [DecidableEq κ]
    (rk : Bytes → Except Err (κ × Bytes)) (rv : Bytes → Except Err (ν × Bytes))
    (s : Bytes) : Except Err (Entries κ ν × Bytes) :=
  match varIntRead s with
  | .error e => .error (.context "invalid hashmap length varint" e)
  | .ok (n, s2) => mapReadLoop rk rv n [] s2

/-- The guard chain generated by `impl_group_mode!` (src/packets.rs lines
321-331): the packet-id table of a group, tried in declaration order.
An id matching no declared packet fails with the unknown-packet error
carrying that id. -/
def groupDispatch {α : Type} :
    List (Nat × (Bytes → Except Err (α × Bytes))) → Nat → Bytes →
      Except Err (α × Bytes)
  | [], pid, _ => .error (.unknownPacketId pid)
  | (pid0, rd) :: rest, pid, s =>
    if pid = pid0 then rd s else groupDispatch rest pid s

/-- The `Readable` implementation generated for a packet group by
`impl_group_mode!` (src/packets.rs lines 321-331): read the leading
`VarInt` discriminant (error propagated unchanged by `?`), then dispatch
on it against the group's declared id table. -/
def groupRead {α : Type}
    (table : List (Nat × (Bytes → Except Err (α × Bytes)))) (s : Bytes) :
    Except Err (α × Bytes) :=
  match varIntRead s with
  | .error e => .error e
  | .ok (pid, rest) => groupDispatch table pid rest

/-! ### Arithmetic helpers for the 7-bit group codec -/

lemma and127 (x : Nat) : x &&& 127 = x % 128 := by
  have h := Nat.and_pow_two_sub_one_eq_mod x 7
  norm_num at h
  exact h

lemma and128 (x : Nat) : x &&& 128 = x / 128 % 2 * 128 := by
  have h : x &&& 128 = (x.testBit 7).toNat * 128 := by simpa using Nat.and_two_pow x 7
  rw [h, Nat.testBit_to_div_mod]
  rcases Nat.mod_two_eq_zero_or_one (x / 128) with h2 | h2 <;> simp [h2]

lemma lor_mul_pow {a : Nat} (b k : Nat) (h : a < 2 ^ k) :
    a ||| b * 2 ^ k = a + b * 2 ^ k := by
  have h2 := Nat.mul_add_lt_is_or h b
  rw [Nat.or_comm] at h2
  rw [Nat.mul_comm] at h2
  exact h2.symm.trans (by ring)

/-- The byte sequence produced by the (structurally identical) `VarInt`
and `VarLong` writer loops; agreement with the writers on an infallible
sink is proved in `varIntWrite_unbounded` / `varLongWrite_unbounded`. -/
def varEncBytes (x : Nat) : Bytes :=
  if x >>> 7 = 0 then [x &&& 127]
  else (x &&& 127 ||| 128) :: varEncBytes (x >>> 7)
termination_by x
decreasing_by
  have hx : x >>> 7 = x / 2 ^ 7 := Nat.shiftRight_eq_div_pow x 7
  simp only [hx] at *
  omega

lemma varEncBytes_low {x : Nat} (h : x < 128) : varEncBytes x = [x] := by
  rw [varEncBytes]
  rw [if_pos (by simp [Nat.shiftRight_eq_div_pow]; omega)]
  rw [and127, Nat.mod_eq_of_lt h]

lemma varEncBytes_high {x : Nat} (h : 128 ≤ x) :
    varEncBytes x = (x % 128 + 128) :: varEncBytes (x / 128) := by
  rw [varEncBytes]
  rw [if_neg (by simp [Nat.shiftRight_eq_div_pow]; omega)]
  have h1 : x &&& 127 ||| 128 = x % 128 + 128 := by
    rw [and127]
    have := lor_mul_pow (a := x % 128) 1 7 (by omega)
    simpa using this
  rw [h1, Nat.shiftRight_eq_div_pow]

lemma varIntWrite_unbounded (x : Nat) :
    ∀ buf, varIntWrite x ⟨buf, none⟩ = WRes.ok ⟨buf ++ varEncBytes x, none⟩ := by
  induction x using Nat.strong_induction_on with
  | _ x ih =>
    intro buf
    rw [varIntWrite, varEncBytes]
    by_cases h : x >>> 7 = 0
    · have hlt : x &&& 127 < 256 := by rw [and127]; omega
      simp [h, Sink.writeU8, Nat.mod_eq_of_lt hlt]
    · have hx : x >>> 7 = x / 2 ^ 7 := Nat.shiftRight_eq_div_pow x 7
      have hlt : x &&& 127 ||| 128 < 256 := by
        rw [and127]
        have := lor_mul_pow (a := x % 128) 1 7 (by omega)
        simp at this
        omega
      have hrec : x >>> 7 < x := by rw [hx]; omega
      simp only [h, if_neg, ite_false, ne_eq, not_false_eq_true, ite_true,
        Sink.writeU8, Nat.mod_eq_of_lt hlt]
      rw [ih _ hrec]
      simp

lemma varLongWrite_unbounded (x : Nat) :
    ∀ buf, varLongWrite x ⟨buf, none⟩ = WRes.ok ⟨buf ++ varEncBytes x, none⟩ := by
  induction x using Nat.strong_induction_on with
  | _ x ih =>
    intro buf
    rw [varLongWrite, varEncBytes]
    by_cases h : x >>> 7 = 0
    · have hlt : x &&& 127 < 256 := by rw [and127]; omega
      simp [h, Sink.writeU8, Nat.mod_eq_of_lt hlt]
    · have hx : x >>> 7 = x / 2 ^ 7 := Nat.shiftRight_eq_div_pow x 7
      have hlt : x &&& 127 ||| 128 < 256 := by
        rw [and127]
        have := lor_mul_pow (a := x % 128) 1 7 (by omega)
        simp at this
        omega
      have hrec : x >>> 7 < x := by rw [hx]; omega
      simp only [h, if_neg, ite_false, ne_eq, not_false_eq_true, ite_true,
        Sink.writeU8, Nat.mod_eq_of_lt hlt]
      rw [ih _ hrec]
      simp

lemma encPure_varIntWrite (x : Nat) : encPure varIntWrite x = varEncBytes x := by
  simp [encPure, varIntWrite_unbounded]

lemma encPure_varLongWrite (x : Nat) : encPure varLongWrite x = varEncBytes x := by
  simp [encPure, varLongWrite_unbounded]

/-! ### Single steps of the variable-length decode loops -/

lemma varIntLoop_step {off res b : Nat} {rest : Bytes} (hoff : off + 7 ≤ 35)
    (hcont : b % 256 / 128 % 2 = 1) :
    varIntLoop off res (b :: rest) =
      varIntLoop (off + 7) (res ||| ((b % 256 &&& 127) <<< (off % 32)) % 2 ^ 32) rest := by
  simp only [varIntLoop]
  rw [if_neg (by omega)]
  rw [if_neg (by rw [and128, hcont]; norm_num)]

lemma varIntLoop_last {off res b : Nat} {rest : Bytes} (hoff : off + 7 ≤ 35)
    (hcont : b % 256 / 128 % 2 = 0) :
    varIntLoop off res (b :: rest) =
      .ok (res ||| ((b % 256 &&& 127) <<< (off % 32)) % 2 ^ 32, rest) := by
  simp only [varIntLoop]
  rw [if_neg (by omega)]
  rw [if_pos (by rw [and128, hcont])]

lemma varIntLoop_bail {off res b : Nat} {rest : Bytes} (hoff : off + 7 > 35) :
    varIntLoop off res (b :: rest) = .error .varIntOverflow := by
  simp only [varIntLoop]
  rw [if_pos (by omega)]

lemma varLongLoop_step {off res b : Nat} {rest : Bytes} (hoff : off + 7 ≤ 70)
    (hcont : b % 256 / 128 % 2 = 1) :
    varLongLoop off res (b :: rest) =
      varLongLoop (off + 7) (res ||| ((b % 256 &&& 127) <<< (off % 64)) % 2 ^ 64) rest := by
  simp only [varLongLoop]
  rw [if_neg (by omega)]
  rw [if_neg (by rw [and128, hcont]; norm_num)]

lemma varLongLoop_last {off res b : Nat} {rest : Bytes} (hoff : off + 7 ≤ 70)
    (hcont : b % 256 / 128 % 2 = 0) :
    varLongLoop off res (b :: rest) =
      .ok (res ||| ((b % 256 &&& 127) <<< (off % 64)) % 2 ^ 64, rest) := by
  simp only [varLongLoop]
  rw [if_neg (by omega)]
  rw [if_pos (by rw [and128, hcont])]

lemma varLongLoop_bail {off res b : Nat} {rest : Bytes} (hoff : off + 7 > 70) :
    varLongLoop off res (b :: rest) = .error .varLongOverflow := by
  simp only [varLongLoop]
  rw [if_pos (by omega)]

/-! ### Decode-of-encode for the variable-length integers -/

lemma varIntLoop_enc (y : Nat) :
    ∀ off res rest, off % 7 = 0 → off ≤ 28 → y < 2 ^ (32 - off) → res < 2 ^ off →
      varIntLoop off res (varEncBytes y ++ rest) = .ok (res + y * 2 ^ off, rest) := by
  induction y using Nat.strong_induction_on with
  | _ y ih =>
    intro off res rest h7 hoff hy hres
    by_cases hlow : y < 128
    · rw [varEncBytes_low hlow, List.cons_append, List.nil_append]
      rw [varIntLoop_last (by omega) (by omega)]
      have e1 : y % 256 = y := Nat.mod_eq_of_lt (by omega)
      have e2 : off % 32 = off := Nat.mod_eq_of_lt (by omega)
      rw [e1, and127, Nat.mod_eq_of_lt hlow, e2, Nat.shiftLeft_eq]
      have hmul : y * 2 ^ off < 2 ^ 32 := by
        calc y * 2 ^ off < 2 ^ (32 - off) * 2 ^ off :=
              (Nat.mul_lt_mul_right (Nat.two_pow_pos off)).mpr hy
          _ = 2 ^ 32 := by rw [← pow_add]; congr 1; omega
      rw [Nat.mod_eq_of_lt hmul, lor_mul_pow y off hres]
    · have hge : 128 ≤ y := by omega
      have hoff21 : off ≤ 21 := by
        have h1 : (2 : Nat) ^ 7 < 2 ^ (32 - off) := by omega
        have h2 : 7 < 32 - off := (Nat.pow_lt_pow_iff_right (by norm_num)).mp h1
        omega
      rw [varEncBytes_high hge, List.cons_append]
      rw [varIntLoop_step (by omega) (by
        have : (y % 128 + 128) % 256 = y % 128 + 128 := Nat.mod_eq_of_lt (by omega)
        rw [this]
        omega)]
      have e1 : (y % 128 + 128) % 256 = y % 128 + 128 := Nat.mod_eq_of_lt (by omega)
      have e2 : off % 32 = off := Nat.mod_eq_of_lt (by omega)
      rw [e1, and127, Nat.add_mod_right, e2, Nat.shiftLeft_eq]
      have hmul : y % 128 % 128 * 2 ^ off < 2 ^ 32 := by
        calc y % 128 % 128 * 2 ^ off ≤ 127 * 2 ^ 21 :=
              Nat.mul_le_mul (by omega) (Nat.pow_le_pow_right (by norm_num) hoff21)
          _ < 2 ^ 32 := by norm_num
      rw [Nat.mod_eq_of_lt hmul, lor_mul_pow _ off hres]
      have hql : y / 128 < y := Nat.div_lt_self (by omega) (by norm_num)
      have hq2 : y / 128 < 2 ^ (32 - (off + 7)) := by
        rw [Nat.div_lt_iff_lt_mul (by norm_num : (0 : Nat) < 128)]
        calc y < 2 ^ (32 - off) := hy
          _ = 2 ^ (32 - (off + 7)) * 128 := by
              rw [show (128 : Nat) = 2 ^ 7 by norm_num, ← pow_add]
              congr 1
              omega
      have hres2 : res + y % 128 % 128 * 2 ^ off < 2 ^ (off + 7) := by
        have hb : y % 128 % 128 * 2 ^ off ≤ 127 * 2 ^ off :=
          Nat.mul_le_mul_right _ (by omega)
        have hp : (2 : Nat) ^ (off + 7) = 128 * 2 ^ off := by
          rw [pow_add]
          ring
        omega
      rw [ih (y / 128) hql (off + 7) _ rest (by omega) (by omega) hq2 hres2]
      have hmm : y % 128 % 128 = y % 128 := Nat.mod_mod_of_dvd y dvd_rfl
      have hsplit : y % 128 + 128 * (y / 128) = y := Nat.mod_add_div y 128
      have harith : res + y % 128 % 128 * 2 ^ off + y / 128 * 2 ^ (off + 7)
          = res + y * 2 ^ off := by
        rw [hmm]
        conv_rhs => rw [← hsplit]
        rw [pow_add]
        ring
      rw [harith]

lemma varIntRead_enc {n : Nat} (h : n < 2 ^ 32) (rest : Bytes) :
    varIntRead (varEncBytes n ++ rest) = .ok (n, rest) := by
  have hmain := varIntLoop_enc n 0 0 rest (by norm_num) (by norm_num)
    (by simpa using h) (by norm_num)
  simpa [varIntRead] using hmain

lemma varLongLoop_enc (y : Nat) :
    ∀ off res rest, off % 7 = 0 → off ≤ 63 → y < 2 ^ (64 - off) → res < 2 ^ off →
      varLongLoop off res (varEncBytes y ++ rest) = .ok (res + y * 2 ^ off, rest) := by
  induction y using Nat.strong_induction_on with
  | _ y ih =>
    intro off res rest h7 hoff hy hres
    by_cases hlow : y < 128
    · rw [varEncBytes_low hlow, List.cons_append, List.nil_append]
      rw [varLongLoop_last (by omega) (by omega)]
      have e1 : y % 256 = y := Nat.mod_eq_of_lt (by omega)
      have e2 : off % 64 = off := Nat.mod_eq_of_lt (by omega)
      rw [e1, and127, Nat.mod_eq_of_lt hlow, e2, Nat.shiftLeft_eq]
      have hmul : y * 2 ^ off < 2 ^ 64 := by
        calc y * 2 ^ off < 2 ^ (64 - off) * 2 ^ off :=
              (Nat.mul_lt_mul_right (Nat.two_pow_pos off)).mpr hy
          _ = 2 ^ 64 := by rw [← pow_add]; congr 1; omega
      rw [Nat.mod_eq_of_lt hmul, lor_mul_pow y off hres]
    · have hge : 128 ≤ y := by omega
      have hoff56 : off ≤ 56 := by
        have h1 : (2 : Nat) ^ 7 < 2 ^ (64 - off) := by omega
        have h2 : 7 < 64 - off := (Nat.pow_lt_pow_iff_right (by norm_num)).mp h1
        omega
      rw [varEncBytes_high hge, List.cons_append]
      rw [varLongLoop_step (by omega) (by
        have : (y % 128 + 128) % 256 = y % 128 + 128 := Nat.mod_eq_of_lt (by omega)
        rw [this]
        omega)]
      have e1 : (y % 128 + 128) % 256 = y % 128 + 128 := Nat.mod_eq_of_lt (by omega)
      have e2 : off % 64 = off := Nat.mod_eq_of_lt (by omega)
      rw [e1, and127, Nat.add_mod_right, e2, Nat.shiftLeft_eq]
      have hmul : y % 128 % 128 * 2 ^ off < 2 ^ 64 := by
        calc y % 128 % 128 * 2 ^ off ≤ 127 * 2 ^ 56 :=
              Nat.mul_le_mul (by omega) (Nat.pow_le_pow_right (by norm_num) hoff56)
          _ < 2 ^ 64 := by norm_num
      rw [Nat.mod_eq_of_lt hmul, lor_mul_pow _ off hres]
      have hql : y / 128 < y := Nat.div_lt_self (by omega) (by norm_num)
      have hq2 : y / 128 < 2 ^ (64 - (off + 7)) := by
        rw [Nat.div_lt_iff_lt_mul (by norm_num : (0 : Nat) < 128)]
        calc y < 2 ^ (64 - off) := hy
          _ = 2 ^ (64 - (off + 7)) * 128 := by
              rw [show (128 : Nat) = 2 ^ 7 by norm_num, ← pow_add]
              congr 1
              omega
      have hres2 : res + y % 128 % 128 * 2 ^ off < 2 ^ (off + 7) := by
        have hb : y % 128 % 128 * 2 ^ off ≤ 127 * 2 ^ off :=
          Nat.mul_le_mul_right _ (by omega)
        have hp : (2 : Nat) ^ (off + 7) = 128 * 2 ^ off := by
          rw [pow_add]
          ring
        omega
      rw [ih (y / 128) hql (off + 7) _ rest (by omega) (by omega) hq2 hres2]
      have hmm : y % 128 % 128 = y % 128 := Nat.mod_mod_of_dvd y dvd_rfl
      have hsplit : y % 128 + 128 * (y / 128) = y := Nat.mod_add_div y 128
      have harith : res + y % 128 % 128 * 2 ^ off + y / 128 * 2 ^ (off + 7)
          = res + y * 2 ^ off := by
        rw [hmm]
        conv_rhs => rw [← hsplit]
        rw [pow_add]
        ring
      rw [harith]

lemma varLongRead_enc {n : Nat} (h : n < 2 ^ 64) (rest : Bytes) :
    varLongRead (varEncBytes n ++ rest) = .ok (n, rest) := by
  have hmain := varLongLoop_enc n 0 0 rest (by norm_num) (by norm_num)
    (by simpa using h) (by norm_num)
  simpa [varLongRead] using hmain

/-! ### Helpers for sinks, exact reads and the fixed-width codecs -/

lemma writeAll_unbounded (bs : List Nat) :
    ∀ buf, Sink.writeAll ⟨buf, none⟩ bs = some ⟨buf ++ bs.map (· % 256), none⟩ := by
  induction bs with
  | nil => intro buf; simp [Sink.writeAll]
  | cons b rest ih =>
    intro buf
    simp [Sink.writeAll, Sink.writeU8, ih]

lemma readExact_append {bs : List Nat} (hb : ∀ b ∈ bs, b < 256) :
    ∀ rest, readExact bs.length (bs ++ rest) = some (bs, rest) := by
  induction bs with
  | nil => intro rest; simp [readExact]
  | cons b bsr ih =>
    intro rest
    have hb0 : b < 256 := hb b (by simp)
    have ih2 := ih (fun x hx => hb x (by simp [hx])) rest
    simp [readExact, ih2, Nat.mod_eq_of_lt hb0]

lemma beReadLoop_beBytes (k : Nat) :
    ∀ acc n rest, beReadLoop k acc (beBytes k n ++ rest) =
      .ok (acc * 256 ^ k + n % 256 ^ k, rest) := by
  induction k with
  | zero => intro acc n rest; simp [beBytes, beReadLoop, Nat.mod_one]
  | succ k ih =>
    intro acc n rest
    have hb : n >>> (8 * k) % 256 % 256 = n / 256 ^ k % 256 := by
      rw [Nat.shiftRight_eq_div_pow, Nat.mod_mod_of_dvd _ dvd_rfl]
      congr 2
      rw [pow_mul]
      norm_num
    rw [beBytes, List.cons_append, beReadLoop, hb, ih]
    have hsplit : n % 256 ^ (k + 1) = n % 256 ^ k + 256 ^ k * (n / 256 ^ k % 256) := by
      rw [pow_succ]
      exact Nat.mod_mul
    rw [hsplit]
    congr 2
    ring

lemma beBytes_lt (k n : Nat) : ∀ b ∈ beBytes k n, b < 256 := by
  induction k with
  | zero => simp [beBytes]
  | succ k ih =>
    intro b hbmem
    rw [beBytes] at hbmem
    rcases List.mem_cons.mp hbmem with h | h
    · omega
    · exact ih b h

lemma beBytes_length (k n : Nat) : (beBytes k n).length = k := by
  induction k with
  | zero => simp [beBytes]
  | succ k ih => simp [beBytes, ih]

lemma beWrite_unbounded (k n : Nat) (buf : List Nat) :
    Sink.writeAll ⟨buf, none⟩ (beBytes k n) = some ⟨buf ++ beBytes k n, none⟩ := by
  rw [writeAll_unbounded]
  have hmap : (beBytes k n).map (· % 256) = beBytes k n := by
    have hcg := List.map_congr_left
      (fun b hbmem => Nat.mod_eq_of_lt (beBytes_lt k n b hbmem))
    simpa using hcg
  rw [hmap]

/-! ### Element loops: vectors, maps, options -/

lemma readElems_enc {α : Type} {rd : Bytes → Except Err (α × Bytes)}
    {eb : α → Bytes} {P : α → Prop}
    (hrt : ∀ x rest, P x → rd (eb x ++ rest) = .ok (x, rest)) :
    ∀ (l : List α) (rest : Bytes), (∀ x ∈ l, P x) →
      readElems rd l.length (l.flatMap eb ++ rest) = .ok (l, rest) := by
  intro l
  induction l with
  | nil => intro rest _; simp [readElems]
  | cons x xs ih =>
    intro rest hP
    have h1 : (x :: xs).flatMap eb ++ rest = eb x ++ (xs.flatMap eb ++ rest) := by
      simp
    rw [List.length_cons, readElems, h1, hrt x _ (hP x (by simp))]
    simp [ih rest (fun a ha => hP a (by simp [ha]))]

lemma readElems_cons {α : Type} (rd : Bytes → Except Err (α × Bytes))
    (n : Nat) (s : Bytes) (x : α) (s3 : Bytes) (h : rd s = .ok (x, s3)) :
    readElems rd (n + 1) s =
      match readElems rd n s3 with
      | .error e => .error e
      | .ok (xs, s4) => .ok (x :: xs, s4) := by
  rw [readElems, h]

lemma readElems_err {α : Type} {rd : Bytes → Except Err (α × Bytes)} :
    ∀ (k n : Nat) (s s2 : Bytes) (pre : List α) (e : Err),
      readElems rd k s = .ok (pre, s2) → k < n → rd s2 = .error e →
      readElems rd n s = .error e := by
  intro k
  induction k with
  | zero =>
    intro n s s2 pre e hok hlt herr
    simp only [readElems, Except.ok.injEq, Prod.mk.injEq] at hok
    obtain ⟨m, hm⟩ := Nat.exists_eq_add_of_lt hlt
    subst hm
    rw [show 0 + m + 1 = m + 1 by omega]
    rw [← hok.2] at herr
    simp [readElems, herr]
  | succ k ih =>
    intro n s s2 pre e hok hlt herr
    obtain ⟨m, hm⟩ := Nat.exists_eq_add_of_lt hlt
    subst hm
    rcases hx : rd s with he | ⟨x, s3⟩
    · simp only [readElems, hx] at hok
      exact absurd hok (by simp)
    · rcases hy : readElems rd k s3 with he2 | ⟨xs, s4⟩
      · simp only [readElems, hx, hy] at hok
        exact absurd hok (by simp)
      · simp only [readElems, hx, hy, Except.ok.injEq, Prod.mk.injEq] at hok
        have herr2 : rd s4 = .error e := by rw [hok.2]; exact herr
        have hrec := ih (k + m + 1) s3 s4 xs e hy (by omega) herr2
        rw [show k + 1 + m + 1 = (k + m + 1) + 1 by omega]
        rw [readElems_cons rd _ s x s3 hx, hrec]

lemma vecWriteElems_unbounded {α : Type} {w : α → Sink → WRes} {eb : α → Bytes}
    {P : α → Prop}
    (hw : ∀ x buf, P x → w x ⟨buf, none⟩ = .ok ⟨buf ++ eb x, none⟩) :
    ∀ (l : List α) (buf : List Nat), (∀ x ∈ l, P x) →
      vecWriteElems w l ⟨buf, none⟩ = .ok ⟨buf ++ l.flatMap eb, none⟩ := by
  intro l
  induction l with
  | nil => intro buf _; simp [vecWriteElems]
  | cons x xs ih =>
    intro buf hP
    simp only [vecWriteElems, hw x buf (hP x (by simp))]
    rw [ih (buf ++ eb x) (fun a ha => hP a (by simp [ha]))]
    simp

/-- Key lookup in the entry-list model of a `HashMap`. -/
def lookupKV {κ ν : Type} [DecidableEq κ] : Entries κ ν → κ → Option ν
  | [], _ => none
  | e :: rest, k => if e.1 = k then some e.2 else lookupKV rest k

lemma lookupKV_insert_self {κ ν : Type} [DecidableEq κ] (l : Entries κ ν) (k : κ) (v : ν) :
    lookupKV (insertKV l k v) k = some v := by
  induction l with
  | nil => simp [insertKV, lookupKV]
  | cons e rest ih =>
    by_cases h : e.1 = k
    · simp [insertKV, h, lookupKV]
    · simp [insertKV, h, lookupKV, ih]

lemma lookupKV_insert_other {κ ν : Type} [DecidableEq κ] (l : Entries κ ν)
    (k k2 : κ) (v : ν) (hne : k2 ≠ k) :
    lookupKV (insertKV l k v) k2 = lookupKV l k2 := by
  induction l with
  | nil =>
    have hne2 : ¬(k = k2) := fun hh => hne hh.symm
    simp [insertKV, lookupKV, hne2]
  | cons e rest ih =>
    by_cases h : e.1 = k
    · have hne2 : ¬(k = k2) := fun hh => hne hh.symm
      have hne3 : ¬(e.1 = k2) := fun hh => hne2 (by rw [← h]; exact hh)
      simp [insertKV, h, lookupKV, hne2, hne3]
    · simp only [insertKV, if_neg h]
      by_cases h2 : e.1 = k2
      · simp [lookupKV, h2]
      · simp [lookupKV, h2, ih]

lemma insertKV_append {κ ν : Type} [DecidableEq κ] (l : Entries κ ν) (k : κ) (v : ν)
    (hk : ∀ e ∈ l, e.1 ≠ k) : insertKV l k v = l ++ [(k, v)] := by
  induction l with
  | nil => simp [insertKV]
  | cons e rest ih =>
    rw [insertKV, if_neg (hk e (by simp))]
    rw [ih (fun a ha => hk a (by simp [ha]))]
    simp

/-! ### Per-type writer output and decode-of-encode lemmas -/

lemma u8Write_unbounded (n : Nat) (buf : List Nat) :
    u8Write n ⟨buf, none⟩ = .ok ⟨buf ++ [n % 256], none⟩ := by
  simp [u8Write, Sink.writeU8]

lemma encPure_u8Write (n : Nat) : encPure u8Write n = [n % 256] := by
  simp [encPure, u8Write_unbounded]

lemma u8Read_enc {n : Nat} (h : n < 256) (rest : Bytes) :
    u8Read (encPure u8Write n ++ rest) = .ok (n, rest) := by
  simp [encPure_u8Write, u8Read, readU8, Nat.mod_eq_of_lt h]

lemma i8Write_unbounded (v : Int) (buf : List Nat) :
    i8Write v ⟨buf, none⟩ = .ok ⟨buf ++ [(v % 256).toNat % 256], none⟩ := by
  simp [i8Write, Sink.writeU8]

lemma encPure_i8Write (v : Int) : encPure i8Write v = [(v % 256).toNat % 256] := by
  simp [encPure, i8Write_unbounded]

lemma i8Read_enc {v : Int} (h1 : -128 ≤ v) (h2 : v < 128) (rest : Bytes) :
    i8Read (encPure i8Write v ++ rest) = .ok (v, rest) := by
  rw [encPure_i8Write]
  have hv : (0 : Int) ≤ v % 256 := Int.emod_nonneg v (by norm_num)
  have hv2 : v % 256 < 256 := Int.emod_lt_of_pos v (by norm_num)
  simp only [i8Read, readU8, List.cons_append, List.nil_append]
  have hm : (v % 256).toNat % 256 % 256 = (v % 256).toNat := by omega
  rw [hm]
  have hval : (if (v % 256).toNat < 128 then (((v % 256).toNat : Int))
      else ((v % 256).toNat : Int) - 256) = v := by
    by_cases hc : (v % 256).toNat < 128
    · rw [if_pos hc]
      omega
    · rw [if_neg hc]
      omega
  rw [hval]

lemma boolWrite_unbounded (v : Bool) (buf : List Nat) :
    boolWrite v ⟨buf, none⟩ = .ok ⟨buf ++ [if v then 1 else 0], none⟩ := by
  cases v <;> simp [boolWrite, Sink.writeU8]

lemma encPure_boolWrite (v : Bool) : encPure boolWrite v = [if v then 1 else 0] := by
  simp [encPure, boolWrite_unbounded]

lemma boolRead_enc (v : Bool) (rest : Bytes) :
    boolRead (encPure boolWrite v ++ rest) = .ok (v, rest) := by
  cases v <;> simp [encPure_boolWrite, boolRead, readU8]

lemma beWrite_ok (k n : Nat) (buf : List Nat) :
    (match Sink.writeAll ⟨buf, none⟩ (beBytes k n) with
      | none => WRes.err .ioErr
      | some o2 => WRes.ok o2) = .ok ⟨buf ++ beBytes k n, none⟩ := by
  rw [beWrite_unbounded]

lemma u16Write_unbounded (n : Nat) (buf : List Nat) :
    u16Write n ⟨buf, none⟩ = .ok ⟨buf ++ beBytes 2 n, none⟩ := beWrite_ok 2 n buf

lemma u32Write_unbounded (n : Nat) (buf : List Nat) :
    u32Write n ⟨buf, none⟩ = .ok ⟨buf ++ beBytes 4 n, none⟩ := beWrite_ok 4 n buf

lemma u64Write_unbounded (n : Nat) (buf : List Nat) :
    u64Write n ⟨buf, none⟩ = .ok ⟨buf ++ beBytes 8 n, none⟩ := beWrite_ok 8 n buf

lemma encPure_u16Write (n : Nat) : encPure u16Write n = beBytes 2 n := by
  simp [encPure, u16Write_unbounded]

lemma encPure_u32Write (n : Nat) : encPure u32Write n = beBytes 4 n := by
  simp [encPure, u32Write_unbounded]

lemma encPure_u64Write (n : Nat) : encPure u64Write n = beBytes 8 n := by
  simp [encPure, u64Write_unbounded]

lemma u16Read_enc {n : Nat} (h : n < 2 ^ 16) (rest : Bytes) :
    u16Read (encPure u16Write n ++ rest) = .ok (n, rest) := by
  rw [encPure_u16Write, u16Read, beReadLoop_beBytes]
  norm_num
  omega

lemma u32Read_enc {n : Nat} (h : n < 2 ^ 32) (rest : Bytes) :
    u32Read (encPure u32Write n ++ rest) = .ok (n, rest) := by
  rw [encPure_u32Write, u32Read, beReadLoop_beBytes]
  norm_num
  omega

lemma u64Read_enc {n : Nat} (h : n < 2 ^ 64) (rest : Bytes) :
    u64Read (encPure u64Write n ++ rest) = .ok (n, rest) := by
  rw [encPure_u64Write, u64Read, beReadLoop_beBytes]
  norm_num
  omega

lemma i16Read_enc {v : Int} (h1 : -2 ^ 15 ≤ v) (h2 : v < 2 ^ 15) (rest : Bytes) :
    i16Read (encPure i16Write v ++ rest) = .ok (v, rest) := by
  have henc : encPure i16Write v = beBytes 2 (v % 2 ^ 16).toNat := by
    simp [encPure, i16Write, u16Write_unbounded]
  rw [henc]
  simp only [i16Read, beReadLoop_beBytes]
  have hv : (0 : Int) ≤ v % 2 ^ 16 := Int.emod_nonneg v (by norm_num)
  have hv2 : v % 2 ^ 16 < 2 ^ 16 := Int.emod_lt_of_pos v (by norm_num)
  have hval : toSigned 16 (0 * 256 ^ 2 + (v % 2 ^ 16).toNat % 256 ^ 2) = v := by
    rw [toSigned]
    norm_num at h1 h2 hv hv2 ⊢
    by_cases hc : (v % 65536).toNat % 65536 < 32768
    · rw [if_pos hc]
      omega
    · rw [if_neg hc]
      omega
  rw [hval]

lemma i32Read_enc {v : Int} (h1 : -2 ^ 31 ≤ v) (h2 : v < 2 ^ 31) (rest : Bytes) :
    i32Read (encPure i32Write v ++ rest) = .ok (v, rest) := by
  have henc : encPure i32Write v = beBytes 4 (v % 2 ^ 32).toNat := by
    simp [encPure, i32Write, u32Write_unbounded]
  rw [henc]
  simp only [i32Read, beReadLoop_beBytes]
  have hv : (0 : Int) ≤ v % 2 ^ 32 := Int.emod_nonneg v (by norm_num)
  have hv2 : v % 2 ^ 32 < 2 ^ 32 := Int.emod_lt_of_pos v (by norm_num)
  have hval : toSigned 32 (0 * 256 ^ 4 + (v % 2 ^ 32).toNat % 256 ^ 4) = v := by
    rw [toSigned]
    norm_num at h1 h2 hv hv2 ⊢
    by_cases hc : (v % 4294967296).toNat % 4294967296 < 2147483648
    · rw [if_pos hc]
      omega
    · rw [if_neg hc]
      omega
  rw [hval]

lemma i64Read_enc {v : Int} (h1 : -2 ^ 63 ≤ v) (h2 : v < 2 ^ 63) (rest : Bytes) :
    i64Read (encPure i64Write v ++ rest) = .ok (v, rest) := by
  have henc : encPure i64Write v = beBytes 8 (v % 2 ^ 64).toNat := by
    simp [encPure, i64Write, u64Write_unbounded]
  rw [henc]
  simp only [i64Read, beReadLoop_beBytes]
  have hv : (0 : Int) ≤ v % 2 ^ 64 := Int.emod_nonneg v (by norm_num)
  have hv2 : v % 2 ^ 64 < 2 ^ 64 := Int.emod_lt_of_pos v (by norm_num)
  have hval : toSigned 64 (0 * 256 ^ 8 + (v % 2 ^ 64).toNat % 256 ^ 8) = v := by
    rw [toSigned]
    norm_num at h1 h2 hv hv2 ⊢
    by_cases hc : (v % 18446744073709551616).toNat % 18446744073709551616
        < 9223372036854775808
    · rw [if_pos hc]
      omega
    · rw [if_neg hc]
      omega
  rw [hval]

/-! ### Composite codecs: strings, vectors, options, maps -/

lemma stringWrite_unbounded (s : List Nat) (hb : ∀ b ∈ s, b < 256) (buf : List Nat) :
    stringWrite s ⟨buf, none⟩ =
      .ok ⟨buf ++ varEncBytes (s.length % 2 ^ 32) ++ s, none⟩ := by
  have hmap : s.map (· % 256) = s := by
    have hcg := List.map_congr_left (fun b hbm => Nat.mod_eq_of_lt (hb b hbm))
    simpa using hcg
  simp [stringWrite, varIntWrite_unbounded, writeAll_unbounded, hmap]

lemma encPure_stringWrite (s : List Nat) (hb : ∀ b ∈ s, b < 256) :
    encPure stringWrite s = varEncBytes (s.length % 2 ^ 32) ++ s := by
  simp [encPure, stringWrite_unbounded s hb]

lemma stringRead_enc (s : List Nat) (hb : ∀ b ∈ s, b < 256) (hutf : validUtf8 s = true)
    (hlen : s.length ≤ 32767) (rest : Bytes) :
    stringRead (encPure stringWrite s ++ rest) = .ok (s, rest) := by
  have hlen32 : s.length < 2 ^ 32 := by omega
  have henc : encPure stringWrite s = varEncBytes s.length ++ s := by
    rw [encPure_stringWrite s hb, Nat.mod_eq_of_lt hlen32]
  rw [henc, List.append_assoc]
  simp only [stringRead, varIntRead_enc hlen32]
  rw [if_neg (by omega)]
  rw [readExact_append hb]
  simp [hutf]

lemma vecWrite_unbounded {α : Type} {w : α → Sink → WRes} {eb : α → Bytes}
    {P : α → Prop}
    (hw : ∀ x buf, P x → w x ⟨buf, none⟩ = .ok ⟨buf ++ eb x, none⟩)
    (l : List α) (buf : List Nat) (hP : ∀ x ∈ l, P x) :
    vecWrite w l ⟨buf, none⟩ =
      .ok ⟨buf ++ varEncBytes (l.length % 2 ^ 32) ++ l.flatMap eb, none⟩ := by
  simp only [vecWrite, varIntWrite_unbounded]
  rw [vecWriteElems_unbounded hw l _ hP]

lemma vecRead_enc {α : Type} {rd : Bytes → Except Err (α × Bytes)} {eb : α → Bytes}
    {P : α → Prop}
    (hrt : ∀ x rest, P x → rd (eb x ++ rest) = .ok (x, rest))
    (l : List α) (rest : Bytes) (hP : ∀ x ∈ l, P x) (hlen : l.length < 2 ^ 32) :
    vecRead rd (varEncBytes l.length ++ l.flatMap eb ++ rest) = .ok (l, rest) := by
  rw [List.append_assoc]
  simp only [vecRead, varIntRead_enc hlen]
  exact readElems_enc hrt l rest hP

lemma optionWrite_none_unbounded {α : Type} (w : α → Sink → WRes) (buf : List Nat) :
    optionWrite w none ⟨buf, none⟩ = .ok ⟨buf ++ [0], none⟩ := by
  simp [optionWrite, boolWrite, Sink.writeU8]

lemma optionWrite_some_unbounded {α : Type} {w : α → Sink → WRes} {eb : α → Bytes}
    {P : α → Prop}
    (hw : ∀ x buf, P x → w x ⟨buf, none⟩ = .ok ⟨buf ++ eb x, none⟩)
    (x : α) (buf : List Nat) (hP : P x) :
    optionWrite w (some x) ⟨buf, none⟩ = .ok ⟨buf ++ 1 :: eb x, none⟩ := by
  have h1 : boolWrite true ⟨buf, none⟩ = .ok ⟨buf ++ [1], none⟩ := by
    simp [boolWrite, Sink.writeU8]
  simp only [optionWrite, h1]
  rw [hw x (buf ++ [1]) hP]
  simp

lemma optionRead_none_enc {α : Type} (rd : Bytes → Except Err (α × Bytes))
    (rest : Bytes) : optionRead rd ([0] ++ rest) = .ok (none, rest) := by
  simp [optionRead, boolRead, readU8]

lemma optionRead_some_enc {α : Type} {rd : Bytes → Except Err (α × Bytes)}
    {eb : α → Bytes} {P : α → Prop}
    (hrt : ∀ x rest, P x → rd (eb x ++ rest) = .ok (x, rest))
    (x : α) (rest : Bytes) (hP : P x) :
    optionRead rd (1 :: eb x ++ rest) = .ok (some x, rest) := by
  simp only [optionRead, boolRead, readU8]
  norm_num
  rw [hrt x rest hP]

lemma mapWriteElems_unbounded {κ ν : Type} {wk : κ → Sink → WRes} {wv : ν → Sink → WRes}
    {ebk : κ → Bytes} {ebv : ν → Bytes} {Pk : κ → Prop} {Pv : ν → Prop}
    (hwk : ∀ k buf, Pk k → wk k ⟨buf, none⟩ = .ok ⟨buf ++ ebk k, none⟩)
    (hwv : ∀ v buf, Pv v → wv v ⟨buf, none⟩ = .ok ⟨buf ++ ebv v, none⟩) :
    ∀ (l : Entries κ ν) (buf : List Nat), (∀ e ∈ l, Pk e.1 ∧ Pv e.2) →
      mapWriteElems wk wv l ⟨buf, none⟩ =
        .ok ⟨buf ++ l.flatMap (fun e => ebk e.1 ++ ebv e.2), none⟩ := by
  intro l
  induction l with
  | nil => intro buf _; simp [mapWriteElems]
  | cons e xs ih =>
    obtain ⟨k, v⟩ := e
    intro buf hP
    simp only [mapWriteElems, hwk k buf (hP (k, v) (by simp)).1,
      hwv v (buf ++ ebk k) (hP (k, v) (by simp)).2]
    rw [ih (buf ++ ebk k ++ ebv v) (fun a ha => hP a (by simp [ha]))]
    simp

lemma mapWrite_unbounded {κ ν : Type} {wk : κ → Sink → WRes} {wv : ν → Sink → WRes}
    {ebk : κ → Bytes} {ebv : ν → Bytes} {Pk : κ → Prop} {Pv : ν → Prop}
    (hwk : ∀ k buf, Pk k → wk k ⟨buf, none⟩ = .ok ⟨buf ++ ebk k, none⟩)
    (hwv : ∀ v buf, Pv v → wv v ⟨buf, none⟩ = .ok ⟨buf ++ ebv v, none⟩)
    (l : Entries κ ν) (buf : List Nat) (hP : ∀ e ∈ l, Pk e.1 ∧ Pv e.2) :
    mapWrite wk wv l ⟨buf, none⟩ =
      .ok ⟨buf ++ varEncBytes (l.length % 2 ^ 32) ++
        l.flatMap (fun e => ebk e.1 ++ ebv e.2), none⟩ := by
  simp only [mapWrite, varIntWrite_unbounded]
  rw [mapWriteElems_unbounded hwk hwv l _ hP]

lemma mapReadLoop_enc {κ ν : Type} [DecidableEq κ]
    {rk : Bytes → Except Err (κ × Bytes)} {rv : Bytes → Except Err (ν × Bytes)}
    {ebk : κ → Bytes} {ebv : ν → Bytes} {Pk : κ → Prop} {Pv : ν → Prop}
    (hrtk : ∀ k rest, Pk k → rk (ebk k ++ rest) = .ok (k, rest))
    (hrtv : ∀ v rest, Pv v → rv (ebv v ++ rest) = .ok (v, rest)) :
    ∀ (l acc : Entries κ ν) (rest : Bytes),
      (∀ e ∈ l, Pk e.1 ∧ Pv e.2) → (l.map Prod.fst).Nodup →
      (∀ e ∈ l, ∀ a ∈ acc, a.1 ≠ e.1) →
      mapReadLoop rk rv l.length acc
        (l.flatMap (fun e => ebk e.1 ++ ebv e.2) ++ rest) = .ok (acc ++ l, rest) := by
  intro l
  induction l with
  | nil => intro acc rest _ _ _; simp [mapReadLoop]
  | cons e xs ih =>
    obtain ⟨k, v⟩ := e
    intro acc rest hP hnd hdisj
    have hb : ((k, v) :: xs).flatMap (fun e => ebk e.1 ++ ebv e.2) ++ rest
        = ebk k ++ (ebv v ++ (xs.flatMap (fun e => ebk e.1 ++ ebv e.2) ++ rest)) := by
      simp
    rw [List.length_cons, hb]
    simp only [mapReadLoop, hrtk k _ (hP (k, v) (by simp)).1,
      hrtv v _ (hP (k, v) (by simp)).2]
    rw [insertKV_append acc k v (fun a ha => hdisj (k, v) (by simp) a ha)]
    have hnd2 : (xs.map Prod.fst).Nodup := by
      simp only [List.map_cons, List.nodup_cons] at hnd
      exact hnd.2
    have hknot : k ∉ xs.map Prod.fst := by
      simp only [List.map_cons, List.nodup_cons] at hnd
      exact hnd.1
    have hdisj2 : ∀ e ∈ xs, ∀ a ∈ acc ++ [(k, v)], a.1 ≠ e.1 := by
      intro e2 he2 a ha
      rcases List.mem_append.mp ha with h | h
      · exact hdisj e2 (by simp [he2]) a h
      · have ha2 : a = (k, v) := by simpa using h
        subst ha2
        intro hke
        have hke2 : k = e2.1 := hke
        exact hknot (by
          rw [hke2]
          exact List.mem_map_of_mem Prod.fst he2)
    rw [ih (acc ++ [(k, v)]) rest (fun a ha => hP a (by simp [ha])) hnd2 hdisj2]
    simp

lemma mapRead_enc {κ ν : Type} [DecidableEq κ]
    {rk : Bytes → Except Err (κ × Bytes)} {rv : Bytes → Except Err (ν × Bytes)}
    {ebk : κ → Bytes} {ebv : ν → Bytes} {Pk : κ → Prop} {Pv : ν → Prop}
    (hrtk : ∀ k rest, Pk k → rk (ebk k ++ rest) = .ok (k, rest))
    (hrtv : ∀ v rest, Pv v → rv (ebv v ++ rest) = .ok (v, rest))
    (l : Entries κ ν) (rest : Bytes)
    (hP : ∀ e ∈ l, Pk e.1 ∧ Pv e.2) (hnd : (l.map Prod.fst).Nodup)
    (hlen : l.length < 2 ^ 32) :
    mapRead rk rv (varEncBytes l.length ++
      l.flatMap (fun e => ebk e.1 ++ ebv e.2) ++ rest) = .ok (l, rest) := by
  rw [List.append_assoc]
  simp only [mapRead, varIntRead_enc hlen]
  have hmain := mapReadLoop_enc hrtk hrtv l [] rest hP hnd (by simp)
  simpa using hmain

/-! ### Overflow, termination and non-minimal encodings of the decode loops -/

lemma varIntLoop_contAll_fail :
    ∀ (pre : Bytes) (off res b : Nat) (rest : Bytes),
      (∀ x ∈ pre, 128 ≤ x % 256) → off + 7 * pre.length = 35 →
      varIntLoop off res (pre ++ b :: rest) = .error .varIntOverflow := by
  intro pre
  induction pre with
  | nil =>
    intro off res b rest _ hoff
    simp only [List.nil_append]
    exact varIntLoop_bail (by simp at hoff; omega)
  | cons x xs ih =>
    intro off res b rest hc hoff
    simp only [List.length_cons] at hoff
    rw [List.cons_append]
    rw [varIntLoop_step (by omega) (by
      have hx := hc x (by simp)
      have hx2 : x % 256 < 256 := Nat.mod_lt x (by norm_num)
      omega)]
    exact ih (off + 7) _ b rest (fun a ha => hc a (by simp [ha])) (by omega)

lemma varIntLoop_terminates :
    ∀ (pre : Bytes) (off res last : Nat) (rest : Bytes),
      (∀ x ∈ pre, 128 ≤ x % 256) → last % 256 < 128 → off + 7 * pre.length ≤ 28 →
      ∃ v, varIntLoop off res (pre ++ last :: rest) = .ok (v, rest) := by
  intro pre
  induction pre with
  | nil =>
    intro off res last rest _ hl hoff
    simp only [List.length] at hoff
    simp only [List.nil_append]
    exact ⟨_, varIntLoop_last (by omega) (by omega)⟩
  | cons x xs ih =>
    intro off res last rest hc hl hoff
    simp only [List.length_cons] at hoff
    rw [List.cons_append]
    rw [varIntLoop_step (by omega) (by
      have hx := hc x (by simp)
      have hx2 : x % 256 < 256 := Nat.mod_lt x (by norm_num)
      omega)]
    exact ih (off + 7) _ last rest (fun a ha => hc a (by simp [ha])) hl (by omega)

lemma varLongLoop_contAll_fail :
    ∀ (pre : Bytes) (off res b : Nat) (rest : Bytes),
      (∀ x ∈ pre, 128 ≤ x % 256) → off + 7 * pre.length = 70 →
      varLongLoop off res (pre ++ b :: rest) = .error .varLongOverflow := by
  intro pre
  induction pre with
  | nil =>
    intro off res b rest _ hoff
    simp only [List.nil_append]
    exact varLongLoop_bail (by simp at hoff; omega)
  | cons x xs ih =>
    intro off res b rest hc hoff
    simp only [List.length_cons] at hoff
    rw [List.cons_append]
    rw [varLongLoop_step (by omega) (by
      have hx := hc x (by simp)
      have hx2 : x % 256 < 256 := Nat.mod_lt x (by norm_num)
      omega)]
    exact ih (off + 7) _ b rest (fun a ha => hc a (by simp [ha])) (by omega)

lemma varLongLoop_terminates :
    ∀ (pre : Bytes) (off res last : Nat) (rest : Bytes),
      (∀ x ∈ pre, 128 ≤ x % 256) → last % 256 < 128 → off + 7 * pre.length ≤ 63 →
      ∃ v, varLongLoop off res (pre ++ last :: rest) = .ok (v, rest) := by
  intro pre
  induction pre with
  | nil =>
    intro off res last rest _ hl hoff
    simp only [List.length] at hoff
    simp only [List.nil_append]
    exact ⟨_, varLongLoop_last (by omega) (by omega)⟩
  | cons x xs ih =>
    intro off res last rest hc hl hoff
    simp only [List.length_cons] at hoff
    rw [List.cons_append]
    rw [varLongLoop_step (by omega) (by
      have hx := hc x (by simp)
      have hx2 : x % 256 < 256 := Nat.mod_lt x (by norm_num)
      omega)]
    exact ih (off + 7) _ last rest (fun a ha => hc a (by simp [ha])) hl (by omega)

/-- Value of a list of 7-bit digits placed at increasing bit offsets. -/
def digitsVal : List Nat → Nat → Nat
  | [], _ => 0
  | d :: ds, off => d * 2 ^ off + digitsVal ds (off + 7)

lemma varIntLoop_contDigits :
    ∀ (ds : List Nat) (off res : Nat) (tail : Bytes),
      (∀ d ∈ ds, d < 128) → off + 7 * ds.length ≤ 28 → res < 2 ^ off →
      varIntLoop off res (ds.map (· + 128) ++ tail) =
        varIntLoop (off + 7 * ds.length) (res + digitsVal ds off) tail ∧
      res + digitsVal ds off < 2 ^ (off + 7 * ds.length) := by
  intro ds
  induction ds with
  | nil =>
    intro off res tail _ _ hres
    simp [digitsVal, hres]
  | cons d ds ih =>
    intro off res tail hd hoff hres
    simp only [List.length_cons] at hoff
    have hd0 : d < 128 := hd d (by simp)
    have hoff21 : off ≤ 21 := by omega
    rw [List.map_cons, List.cons_append]
    rw [varIntLoop_step (by omega) (by omega)]
    have hacc : res ||| ((d + 128) % 256 &&& 127) <<< (off % 32) % 2 ^ 32
        = res + d * 2 ^ off := by
      rw [and127]
      have h1 : (d + 128) % 256 % 128 = d := by omega
      rw [h1, Nat.shiftLeft_eq, Nat.mod_eq_of_lt (show off < 32 by omega)]
      have h2 : d * 2 ^ off < 2 ^ 32 := by
        calc d * 2 ^ off ≤ 127 * 2 ^ 21 :=
              Nat.mul_le_mul (by omega) (Nat.pow_le_pow_right (by norm_num) hoff21)
          _ < 2 ^ 32 := by norm_num
      rw [Nat.mod_eq_of_lt h2]
      exact lor_mul_pow d off hres
    rw [hacc]
    have hresb : res + d * 2 ^ off < 2 ^ (off + 7) := by
      have hb : d * 2 ^ off ≤ 127 * 2 ^ off := Nat.mul_le_mul_right _ (by omega)
      have hp : (2 : Nat) ^ (off + 7) = 128 * 2 ^ off := by
        rw [pow_add]
        ring
      omega
    have hmain := ih (off + 7) (res + d * 2 ^ off) tail
      (fun a ha => hd a (by simp [ha])) (by omega) hresb
    simp only [List.length_cons]
    constructor
    · rw [hmain.1]
      have hl : off + 7 + 7 * ds.length = off + 7 * (ds.length + 1) := by ring
      rw [hl]
      have hv : res + d * 2 ^ off + digitsVal ds (off + 7)
          = res + digitsVal (d :: ds) off := by
        rw [digitsVal]
        ring
      rw [hv]
    · have hb := hmain.2
      have hl : off + 7 + 7 * ds.length = off + 7 * (ds.length + 1) := by ring
      rw [hl] at hb
      have hv : res + d * 2 ^ off + digitsVal ds (off + 7)
          = res + digitsVal (d :: ds) off := by
        rw [digitsVal]
        ring
      rw [hv] at hb
      exact hb

lemma varLongLoop_contDigits :
    ∀ (ds : List Nat) (off res : Nat) (tail : Bytes),
      (∀ d ∈ ds, d < 128) → off + 7 * ds.length ≤ 63 → res < 2 ^ off →
      varLongLoop off res (ds.map (· + 128) ++ tail) =
        varLongLoop (off + 7 * ds.length) (res + digitsVal ds off) tail ∧
      res + digitsVal ds off < 2 ^ (off + 7 * ds.length) := by
  intro ds
  induction ds with
  | nil =>
    intro off res tail _ _ hres
    simp [digitsVal, hres]
  | cons d ds ih =>
    intro off res tail hd hoff hres
    simp only [List.length_cons] at hoff
    have hd0 : d < 128 := hd d (by simp)
    have hoff56 : off ≤ 56 := by omega
    rw [List.map_cons, List.cons_append]
    rw [varLongLoop_step (by omega) (by omega)]
    have hacc : res ||| ((d + 128) % 256 &&& 127) <<< (off % 64) % 2 ^ 64
        = res + d * 2 ^ off := by
      rw [and127]
      have h1 : (d + 128) % 256 % 128 = d := by omega
      rw [h1, Nat.shiftLeft_eq, Nat.mod_eq_of_lt (show off < 64 by omega)]
      have h2 : d * 2 ^ off < 2 ^ 64 := by
        calc d * 2 ^ off ≤ 127 * 2 ^ 56 :=
              Nat.mul_le_mul (by omega) (Nat.pow_le_pow_right (by norm_num) hoff56)
          _ < 2 ^ 64 := by norm_num
      rw [Nat.mod_eq_of_lt h2]
      exact lor_mul_pow d off hres
    rw [hacc]
    have hresb : res + d * 2 ^ off < 2 ^ (off + 7) := by
      have hb : d * 2 ^ off ≤ 127 * 2 ^ off := Nat.mul_le_mul_right _ (by omega)
      have hp : (2 : Nat) ^ (off + 7) = 128 * 2 ^ off := by
        rw [pow_add]
        ring
      omega
    have hmain := ih (off + 7) (res + d * 2 ^ off) tail
      (fun a ha => hd a (by simp [ha])) (by omega) hresb
    simp only [List.length_cons]
    constructor
    · rw [hmain.1]
      have hl : off + 7 + 7 * ds.length = off + 7 * (ds.length + 1) := by ring
      rw [hl]
      have hv : res + d * 2 ^ off + digitsVal ds (off + 7)
          = res + digitsVal (d :: ds) off := by
        rw [digitsVal]
        ring
      rw [hv]
    · have hb := hmain.2
      have hl : off + 7 + 7 * ds.length = off + 7 * (ds.length + 1) := by ring
      rw [hl] at hb
      have hv : res + d * 2 ^ off + digitsVal ds (off + 7)
          = res + digitsVal (d :: ds) off := by
        rw [digitsVal]
        ring
      rw [hv] at hb
      exact hb

/-! ## Claim theorems -/

/-- C8: boolean encode produces exactly one byte, `0x01` for `true` and
`0x00` for `false`; boolean decode returns `true` on `0x01`, `false` on
`0x00`, and fails with the invalid-boolean error on every other byte
value, in particular on `0x02`. -/
theorem bool_codec_strict :
    (∀ buf : List Nat, boolWrite true ⟨buf, none⟩ = .ok ⟨buf ++ [1], none⟩) ∧
    (∀ buf : List Nat, boolWrite false ⟨buf, none⟩ = .ok ⟨buf ++ [0], none⟩) ∧
    (∀ rest : Bytes, boolRead (0 :: rest) = .ok (false, rest)) ∧
    (∀ rest : Bytes, boolRead (1 :: rest) = .ok (true, rest)) ∧
    (∀ (b : Nat) (rest : Bytes), b < 256 → b ≠ 0 → b ≠ 1 →
      boolRead (b :: rest) = .error .invalidBoolean) ∧
    (∀ rest : Bytes, boolRead (2 :: rest) = .error .invalidBoolean) := by
  refine ⟨?_, ?_, ?_, ?_, ?_, ?_⟩
  · intro buf
    simpa using boolWrite_unbounded true buf
  · intro buf
    simpa using boolWrite_unbounded false buf
  · intro rest
    simp [boolRead, readU8]
  · intro rest
    simp [boolRead, readU8]
  · intro b rest hb h0 h1
    rcases b with _ | b2
    · exact absurd rfl h0
    rcases b2 with _ | n
    · exact absurd rfl h1
    have hm : (n + 1 + 1) % 256 = n + 1 + 1 := Nat.mod_eq_of_lt hb
    simp [boolRead, readU8, hm]
  · intro rest
    simp [boolRead, readU8]

/-- C8 witness: the boolean codec evaluated at concrete inputs. -/
theorem bool_codec_strict_witness :
    boolWrite true ⟨[], none⟩ = .ok ⟨[1], none⟩ ∧
    boolRead [2, 9] = .error .invalidBoolean ∧
    boolRead [0] = .ok (false, []) := by
  refine ⟨?_, ?_, ?_⟩
  · simpa using bool_codec_strict.1 []
  · exact bool_codec_strict.2.2.2.2.1 2 [9] (by norm_num) (by norm_num) (by norm_num)
  · exact bool_codec_strict.2.2.1 []

/-- C7: decoding a packet-group stream whose leading VarInt discriminant
matches no declared packet id of the group fails with the unknown-packet
error carrying that exact numeric id — the dispatch is total over the id
space, every unlisted id is rejected. -/
theorem unknown_packet_rejected {α : Type}
    (table : List (Nat × (Bytes → Except Err (α × Bytes)))) (s : Bytes)
    (pid : Nat) (rest : Bytes)
    (hread : varIntRead s = .ok (pid, rest))
    (hmiss : ∀ e ∈ table, e.1 ≠ pid) :
    groupRead table s = .error (.unknownPacketId pid) := by
  simp only [groupRead, hread]
  clear hread
  induction table with
  | nil => rfl
  | cons e t ih =>
    obtain ⟨pid0, rd⟩ := e
    rw [groupDispatch, if_neg (fun hh => hmiss (pid0, rd) (by simp) (by simp [hh]))]
    exact ih (fun a ha => hmiss a (by simp [ha]))

/-- C7 witness: a two-packet group rejects the undeclared id 5, carrying
that id in the error. -/
theorem unknown_packet_rejected_witness :
    groupRead [(1, u8Read), (2, u8Read)] [5] = .error (.unknownPacketId 5) := by
  apply unknown_packet_rejected _ _ 5 []
  · rfl
  · intro e he
    simp only [List.mem_cons, List.mem_singleton, List.not_mem_nil, or_false] at he
    rcases he with rfl | rfl <;> norm_num

/-- C10: decoding a map byte stream holding duplicate keys succeeds, the
later entry overwriting the earlier one for the same key, so the decoded
map holds fewer entries than the declared count; `insertKV` (the model of
`HashMap::insert`) replaces the value of an existing key and leaves other
keys unchanged. -/
theorem map_duplicate_keys_overwrite :
    (∀ (k v1 v2 : Nat) (rest : Bytes), k < 256 → v1 < 256 → v2 < 256 →
      mapRead u8Read u8Read (2 :: k :: v1 :: k :: v2 :: rest) =
        .ok ([(k, v2)], rest) ∧ ([(k, v2)] : Entries Nat Nat).length < 2) ∧
    (∀ (l : Entries Nat Nat) (k v : Nat),
      lookupKV (insertKV l k v) k = some v) ∧
    (∀ (l : Entries Nat Nat) (k k2 v : Nat), k2 ≠ k →
      lookupKV (insertKV l k v) k2 = lookupKV l k2) := by
  refine ⟨?_, ?_, ?_⟩
  · intro k v1 v2 rest hk hv1 hv2
    constructor
    · have hvr : varIntRead (2 :: k :: v1 :: k :: v2 :: rest)
          = .ok (2, k :: v1 :: k :: v2 :: rest) := rfl
      have h1 : u8Read (k :: v1 :: k :: v2 :: rest) = .ok (k, v1 :: k :: v2 :: rest) := by
        simp [u8Read, readU8, Nat.mod_eq_of_lt hk]
      have h2 : u8Read (v1 :: k :: v2 :: rest) = .ok (v1, k :: v2 :: rest) := by
        simp [u8Read, readU8, Nat.mod_eq_of_lt hv1]
      have h3 : u8Read (k :: v2 :: rest) = .ok (k, v2 :: rest) := by
        simp [u8Read, readU8, Nat.mod_eq_of_lt hk]
      have h4 : u8Read (v2 :: rest) = .ok (v2, rest) := by
        simp [u8Read, readU8, Nat.mod_eq_of_lt hv2]
      simp [mapRead, hvr, mapReadLoop, h1, h2, h3, h4, insertKV]
    · norm_num
  · intro l k v
    exact lookupKV_insert_self l k v
  · intro l k k2 v hne
    exact lookupKV_insert_other l k k2 v hne

/-- C10 witness: the duplicate-key stream `[2, 5, 1, 5, 2]` decodes to the
single entry `(5, 2)`. -/
theorem map_duplicate_keys_overwrite_witness :
    mapRead u8Read u8Read [2, 5, 1, 5, 2] = .ok ([(5, 2)], []) ∧
    lookupKV (insertKV ([(1, 10)] : Entries Nat Nat) 1 20) 1 = some 20 := by
  constructor
  · exact (map_duplicate_keys_overwrite.1 5 1 2 []
      (by norm_num) (by norm_num) (by norm_num)).1
  · exact map_duplicate_keys_overwrite.2.1 [(1, 10)] 1 20

/-- C3 counterexample: a failure of the underlying byte sink does not
always come back as a returned error — the `VarInt` writer `unwrap()`s
the sink write, so on a failing sink it panics. -/
theorem varint_write_panics_on_failed_sink :
    varIntWrite 0 ⟨[], some 0⟩ = .panic := by
  rw [varIntWrite]
  rfl

/-- C3 amended: the decode operations return a value or an error value;
the `u8` and boolean writers propagate a sink failure as a returned
error; but the `VarInt`/`VarLong` writers panic when the sink fails, and
the `Vec` element writer turns an element's returned error into a panic
(`expect`). -/
theorem codec_failures_return_except_writer_panics :
    (∀ s : Bytes, (∃ v, varIntRead s = .ok v) ∨ (∃ e, varIntRead s = .error e)) ∧
    (∀ s : Bytes, (∃ v, stringRead s = .ok v) ∨ (∃ e, stringRead s = .error e)) ∧
    (∀ (n : Nat) (o : Sink), u8Write n o ≠ .panic) ∧
    (∀ (v : Bool) (o : Sink), boolWrite v o ≠ .panic) ∧
    (∀ (n : Nat) (buf : List Nat), varIntWrite n ⟨buf, some 0⟩ = .panic) ∧
    (∀ (n : Nat) (buf : List Nat), varLongWrite n ⟨buf, some 0⟩ = .panic) ∧
    (∀ (α : Type) (w : α → Sink → WRes) (x : α) (xs : List α) (o : Sink) (e : Err),
      w x o = .err e → vecWriteElems w (x :: xs) o = .panic) := by
  refine ⟨?_, ?_, ?_, ?_, ?_, ?_, ?_⟩
  · intro s
    rcases h : varIntRead s with e | v
    · exact Or.inr ⟨e, rfl⟩
    · exact Or.inl ⟨v, rfl⟩
  · intro s
    rcases h : stringRead s with e | v
    · exact Or.inr ⟨e, rfl⟩
    · exact Or.inl ⟨v, rfl⟩
  · intro n o h
    rcases hw : o.writeU8 n with _ | o2 <;> simp [u8Write, hw] at h
  · intro v o h
    rcases hw : o.writeU8 (if v then 1 else 0) with _ | o2 <;>
      simp [boolWrite, hw] at h
  · intro n buf
    rw [varIntWrite]
    rfl
  · intro n buf
    rw [varLongWrite]
    rfl
  · intro α w x xs o e h
    simp [vecWriteElems, h]

/-- C3 witness: the conjuncts evaluated at concrete inputs — `u8` write
errs rather than panics on a full sink, and a `Vec` of booleans panics
when its element write errs there. -/
theorem codec_failures_return_except_writer_panics_witness :
    u8Write 7 ⟨[], some 0⟩ ≠ .panic ∧
    varLongWrite 3 ⟨[], some 0⟩ = .panic ∧
    vecWriteElems boolWrite [true] ⟨[], some 0⟩ = .panic := by
  refine ⟨?_, ?_, ?_⟩
  · exact codec_failures_return_except_writer_panics.2.2.1 7 ⟨[], some 0⟩
  · exact codec_failures_return_except_writer_panics.2.2.2.2.2.1 3 []
  · exact codec_failures_return_except_writer_panics.2.2.2.2.2.2 Bool boolWrite
      true [] ⟨[], some 0⟩ .ioErr (by rw [boolWrite]; rfl)

lemma varEncBytes_minimal (n : Nat) :
    1 ≤ (varEncBytes n).length ∧ n < 128 ^ (varEncBytes n).length ∧
    ((varEncBytes n).length = 1 ∨ 128 ^ ((varEncBytes n).length - 1) ≤ n) := by
  induction n using Nat.strong_induction_on with
  | _ n ih =>
    by_cases h : n < 128
    · rw [varEncBytes_low h]
      norm_num
      omega
    · have h128 : 128 ≤ n := by omega
      rw [varEncBytes_high h128]
      have hq : n / 128 < n := Nat.div_lt_self (by omega) (by norm_num)
      obtain ⟨ih1, ih2, ih3⟩ := ih (n / 128) hq
      simp only [List.length_cons]
      refine ⟨by omega, ?_, ?_⟩
      · have hp : (128 : Nat) ^ ((varEncBytes (n / 128)).length + 1)
            = 128 * 128 ^ (varEncBytes (n / 128)).length := by
          rw [pow_succ]
          ring
        omega
      · right
        simp only [Nat.add_sub_cancel]
        rcases ih3 with h1 | h1
        · rw [h1]
          simpa using h128
        · have hp : (128 : Nat) ^ (varEncBytes (n / 128)).length
              = 128 * 128 ^ ((varEncBytes (n / 128)).length - 1) := by
            conv_lhs => rw [show (varEncBytes (n / 128)).length
              = ((varEncBytes (n / 128)).length - 1) + 1 by omega]
            rw [pow_succ]
            ring
          omega

/-- C6: the VarInt writer emits the low 7 bits of the value per byte with
the high bit set exactly when a non-zero remainder is left, at least one
byte even for 0, and minimally many bytes; the five canonical encodings
come out exactly as specified. -/
theorem varint_minimal_encoding :
    varIntWrite 0 ⟨[], none⟩ = .ok ⟨[0x00], none⟩ ∧
    varIntWrite 127 ⟨[], none⟩ = .ok ⟨[0x7F], none⟩ ∧
    varIntWrite 128 ⟨[], none⟩ = .ok ⟨[0x80, 0x01], none⟩ ∧
    varIntWrite 300 ⟨[], none⟩ = .ok ⟨[0xAC, 0x02], none⟩ ∧
    varIntWrite 16384 ⟨[], none⟩ = .ok ⟨[0x80, 0x80, 0x01], none⟩ ∧
    (∀ n : Nat, n < 128 → encPure varIntWrite n = [n]) ∧
    (∀ n : Nat, 128 ≤ n → n < 2 ^ 32 →
      encPure varIntWrite n = (n % 128 + 128) :: encPure varIntWrite (n / 128)) ∧
    (∀ n : Nat, n < 2 ^ 32 →
      1 ≤ (encPure varIntWrite n).length ∧
      n < 128 ^ (encPure varIntWrite n).length ∧
      ((encPure varIntWrite n).length = 1 ∨
        128 ^ ((encPure varIntWrite n).length - 1) ≤ n)) := by
  refine ⟨?_, ?_, ?_, ?_, ?_, ?_, ?_, ?_⟩
  · rw [varIntWrite_unbounded 0 [], varEncBytes_low (by norm_num)]
    norm_num
  · rw [varIntWrite_unbounded 127 [], varEncBytes_low (by norm_num)]
    norm_num
  · rw [varIntWrite_unbounded 128 [], varEncBytes_high (by norm_num)]
    norm_num
    rw [varEncBytes_low (by norm_num)]
  · rw [varIntWrite_unbounded 300 [], varEncBytes_high (by norm_num)]
    norm_num
    rw [varEncBytes_low (by norm_num)]
  · rw [varIntWrite_unbounded 16384 [], varEncBytes_high (by norm_num)]
    norm_num
    rw [varEncBytes_high (by norm_num)]
    norm_num
    rw [varEncBytes_low (by norm_num)]
  · intro n h
    rw [encPure_varIntWrite, varEncBytes_low h]
  · intro n h1 _
    rw [encPure_varIntWrite, encPure_varIntWrite, varEncBytes_high h1]
  · intro n _
    simp only [encPure_varIntWrite]
    exact varEncBytes_minimal n

/-- C6 witness: the structural conjuncts evaluated at 300. -/
theorem varint_minimal_encoding_witness :
    encPure varIntWrite 300 = [172, 2] ∧ (300 : Nat) < 128 ^ 2 := by
  have h1 := varint_minimal_encoding.2.2.2.2.2.2.1 300 (by norm_num) (by norm_num)
  have h2 := varint_minimal_encoding.2.2.2.2.2.1 2 (by norm_num)
  norm_num at h1
  rw [h2] at h1
  exact ⟨h1, by norm_num⟩

/-- C4 counterexample: decoding `[2, 2, 0]` (element at index 0 fails) and
`[2, 1, 2]` (element at index 1 fails) as `Vec<bool>` produces the same
error value, so the error does not report which element index failed. -/
theorem vec_decode_error_carries_no_index :
    vecRead boolRead [2, 2, 0] = .error .invalidBoolean ∧
    vecRead boolRead [2, 1, 2] = .error .invalidBoolean := by
  constructor
  · rfl
  · rfl

/-- C4 amended: decoding a list of `n` declared elements fails atomically
when an element fails — no partial list is returned, the decode fails with
exactly the failing element's own error, which carries no element-index
information. -/
theorem vec_decode_atomic_inner_error (α : Type)
    (rd : Bytes → Except Err (α × Bytes)) (s s1 s2 : Bytes) (n k : Nat)
    (pre : List α) (e : Err)
    (hlen : varIntRead s = .ok (n, s1))
    (hpre : readElems rd k s1 = .ok (pre, s2))
    (hk : k < n) (herr : rd s2 = .error e) :
    vecRead rd s = .error e := by
  simp only [vecRead, hlen]
  exact readElems_err k n s1 s2 pre e hpre hk herr

/-- C4 witness: a boolean list whose second element is the bad byte 2
fails with exactly the invalid-boolean error of that element. -/
theorem vec_decode_atomic_inner_error_witness :
    vecRead boolRead [2, 0, 2] = .error .invalidBoolean := by
  exact vec_decode_atomic_inner_error Bool boolRead [2, 0, 2] [0, 2] [2] 2 1
    [false] .invalidBoolean rfl rfl (by norm_num) rfl

/-- C5 counterexample: the byte sequence `80 80 80 80 80 00` has only 5
bytes before its clear-continuation byte, yet VarInt decode fails with
the overflow error — the decoder consumes a 6th byte and bails without
inspecting its continuation bit. -/
theorem varint_five_cont_then_clear_overflows :
    varIntRead [128, 128, 128, 128, 128, 0] = .error .varIntOverflow := by
  rfl

/-- C5 amended: VarInt decode fails with overflow exactly when the first
5 consumed bytes all carry the continuation bit (a 6th byte is consumed
and the decode fails regardless of that byte's value); any sequence whose
clear-continuation terminator arrives within the first 5 bytes succeeds.
VarLong behaves the same with 10 bytes, and 11 continuation-flagged bytes
fail VarLong decode with overflow. -/
theorem varint_overflow_exact :
    (∀ (pre : Bytes) (b : Nat) (rest : Bytes), pre.length = 5 →
      (∀ x ∈ pre, 128 ≤ x % 256) →
      varIntRead (pre ++ b :: rest) = .error .varIntOverflow) ∧
    (∀ (pre : Bytes) (last : Nat) (rest : Bytes), pre.length ≤ 4 →
      (∀ x ∈ pre, 128 ≤ x % 256) → last % 256 < 128 →
      (varIntRead (pre ++ last :: rest)).isOk = true) ∧
    (∀ (pre : Bytes) (b : Nat) (rest : Bytes), pre.length = 10 →
      (∀ x ∈ pre, 128 ≤ x % 256) →
      varLongRead (pre ++ b :: rest) = .error .varLongOverflow) ∧
    (∀ (pre : Bytes) (last : Nat) (rest : Bytes), pre.length ≤ 9 →
      (∀ x ∈ pre, 128 ≤ x % 256) → last % 256 < 128 →
      (varLongRead (pre ++ last :: rest)).isOk = true) ∧
    varLongRead (List.replicate 11 128) = .error .varLongOverflow := by
  refine ⟨?_, ?_, ?_, ?_, ?_⟩
  · intro pre b rest hlen hc
    exact varIntLoop_contAll_fail pre 0 0 b rest hc (by omega)
  · intro pre last rest hlen hc hl
    obtain ⟨v, hv⟩ := varIntLoop_terminates pre 0 0 last rest hc hl (by omega)
    rw [varIntRead, hv]
    rfl
  · intro pre b rest hlen hc
    exact varLongLoop_contAll_fail pre 0 0 b rest hc (by omega)
  · intro pre last rest hlen hc hl
    obtain ⟨v, hv⟩ := varLongLoop_terminates pre 0 0 last rest hc hl (by omega)
    rw [varLongRead, hv]
    rfl
  · rfl

/-- C5 witness: the overflow and success conjuncts at concrete byte
sequences. -/
theorem varint_overflow_exact_witness :
    varIntRead [129, 130, 131, 132, 133, 7] = .error .varIntOverflow ∧
    (varIntRead [129, 130, 131, 132, 5]).isOk = true := by
  constructor
  · exact varint_overflow_exact.1 [129, 130, 131, 132, 133] 7 [] (by norm_num)
      (by decide)
  · exact varint_overflow_exact.2.1 [129, 130, 131, 132] 5 [] (by norm_num)
      (by decide) (by norm_num)

lemma varEncBytes_32768 : varEncBytes 32768 = [128, 128, 2] := by
  rw [varEncBytes_high (by norm_num)]
  norm_num
  rw [varEncBytes_high (by norm_num)]
  norm_num
  rw [varEncBytes_low (by norm_num)]

lemma validUtf8_replicate_a (n : Nat) : validUtf8 (List.replicate n 97) = true := by
  induction n with
  | zero => rfl
  | succ n ih =>
    have hl : (List.replicate n (97 : Nat)).length = n := by simp
    have ih2 : validUtf8Go n (List.replicate n 97) = true := by
      rw [validUtf8, hl] at ih
      exact ih
    rw [validUtf8, List.length_replicate, List.replicate_succ]
    show validUtf8Go n (List.replicate n 97) = true
    exact ih2

/-- C2 counterexample: encoding a string of 32768 bytes does not fail —
the string writer performs no maximum-length check and happily produces
the length-prefixed encoding. -/
theorem encode_32768_byte_string_succeeds :
    stringWrite (List.replicate 32768 97) ⟨[], none⟩ =
      .ok ⟨varEncBytes 32768 ++ List.replicate 32768 97, none⟩ := by
  have h := stringWrite_unbounded (List.replicate 32768 97)
    (fun b hb => by have := List.eq_of_mem_replicate hb; omega) []
  rw [List.length_replicate] at h
  rw [Nat.mod_eq_of_lt (by norm_num : (32768 : Nat) < 2 ^ 32)] at h
  rw [List.nil_append] at h
  exact h

/-- C2 amended: a string of exactly 32767 bytes encodes and decodes
successfully; encoding a string of 32768 bytes also succeeds, because the
writer has no length check; decoding a buffer whose length prefix
declares 32768 fails with the length-exceeded error before consuming any
of the string bytes — whatever follows the prefix, even nothing. -/
theorem string_length_boundary :
    (∀ s : List Nat, s.length = 32767 → (∀ b ∈ s, b < 256) → validUtf8 s = true →
      ∀ rest : Bytes, stringWrite s ⟨[], none⟩ = .ok ⟨encPure stringWrite s, none⟩ ∧
        stringRead (encPure stringWrite s ++ rest) = .ok (s, rest)) ∧
    (∀ s : List Nat, s.length = 32768 → (∀ b ∈ s, b < 256) →
      stringWrite s ⟨[], none⟩ = .ok ⟨varEncBytes 32768 ++ s, none⟩) ∧
    (∀ rest : Bytes, stringRead (varEncBytes 32768 ++ rest)
      = .error (.stringLengthExceeded 32768 32767)) := by
  refine ⟨?_, ?_, ?_⟩
  · intro s hlen hb hutf rest
    constructor
    · have h := stringWrite_unbounded s hb []
      rw [encPure_stringWrite s hb]
      simpa using h
    · exact stringRead_enc s hb hutf (by omega) rest
  · intro s hlen hb
    have h := stringWrite_unbounded s hb []
    rw [hlen] at h
    rw [Nat.mod_eq_of_lt (by norm_num : (32768 : Nat) < 2 ^ 32)] at h
    rw [List.nil_append] at h
    exact h
  · intro rest
    rw [varEncBytes_32768]
    have hvr : varIntRead ([128, 128, 2] ++ rest) = .ok (32768, rest) := rfl
    simp only [stringRead, hvr]
    rw [if_pos (by norm_num)]

/-- C2 witness: a 32767-byte string round-trips; a buffer declaring
length 32768 with no string bytes at all fails with the length error. -/
theorem string_length_boundary_witness :
    stringRead (encPure stringWrite (List.replicate 32767 97) ++ [9])
      = .ok (List.replicate 32767 97, [9]) ∧
    stringRead (varEncBytes 32768 ++ [])
      = .error (.stringLengthExceeded 32768 32767) := by
  constructor
  · exact (string_length_boundary.1 (List.replicate 32767 97)
      (by rw [List.length_replicate])
      (fun b hb => by have := List.eq_of_mem_replicate hb; omega)
      (validUtf8_replicate_a 32767) [9]).2
  · exact string_length_boundary.2.2 []

/-- A deliberately overlong (non-minimal) five-byte VarInt encoding of
`v`: every one of the first four bytes carries the continuation bit, and
`extra` perturbs the bits of the final byte that the 32-bit accumulator
truncates away. -/
def overlongVarInt (v extra : Nat) : Bytes :=
  [v % 128 + 128, v / 128 % 128 + 128, v / 16384 % 128 + 128,
   v / 2097152 % 128 + 128, v / 268435456 + extra]

/-- A deliberately overlong ten-byte VarLong encoding of `v`; `extra`
perturbs the bits of the final byte that the 64-bit accumulator truncates
away. -/
def overlongVarLong (v extra : Nat) : Bytes :=
  [v % 128 + 128, v / 128 % 128 + 128, v / 16384 % 128 + 128,
   v / 2097152 % 128 + 128, v / 268435456 % 128 + 128,
   v / 34359738368 % 128 + 128, v / 4398046511104 % 128 + 128,
   v / 562949953421312 % 128 + 128, v / 72057594037927936 % 128 + 128,
   v / 9223372036854775808 + extra]

lemma overlongVarInt_decode (v extra : Nat) (hv : v < 2 ^ 32)
    (hex : extra = 0 ∨ extra = 16) :
    varIntRead (overlongVarInt v extra) = .ok (v, []) := by
  have hmap : overlongVarInt v extra =
      ([v % 128, v / 128 % 128, v / 16384 % 128, v / 2097152 % 128].map (· + 128))
        ++ [v / 268435456 + extra] := by
    simp [overlongVarInt]
  have hds : ∀ d ∈ [v % 128, v / 128 % 128, v / 16384 % 128, v / 2097152 % 128],
      d < 128 := by
    intro d hd
    simp only [List.mem_cons, List.not_mem_nil, or_false] at hd
    rcases hd with rfl | rfl | rfl | rfl <;> omega
  have h1 := varIntLoop_contDigits
    [v % 128, v / 128 % 128, v / 16384 % 128, v / 2097152 % 128] 0 0
    [v / 268435456 + extra] hds (by norm_num) (by norm_num)
  rw [varIntRead, hmap, h1.1]
  have hb1 := h1.2
  simp only [List.length_cons, List.length_nil, digitsVal] at hb1 ⊢
  norm_num at hb1 ⊢
  rw [varIntLoop_last (by norm_num) (by omega)]
  have hq : v / 268435456 < 16 := by omega
  have hlast : (v / 268435456 + extra) % 256 = v / 268435456 + extra := by omega
  rw [hlast, and127]
  have hl2 : (v / 268435456 + extra) % 128 = v / 268435456 + extra := by omega
  rw [hl2, Nat.shiftLeft_eq]
  have hmod : (v / 268435456 + extra) * 2 ^ 28 % 2 ^ 32
      = v / 268435456 * 268435456 := by
    rcases hex with rfl | rfl <;> norm_num <;> omega
  rw [hmod]
  have hlor := lor_mul_pow (a := v % 128 + (v / 128 % 128 * 128 +
      (v / 16384 % 128 * 16384 + v / 2097152 % 128 * 2097152)))
    (v / 268435456) 28 (by norm_num; omega)
  norm_num at hlor
  rw [hlor]
  congr 1
  congr 1
  omega

lemma overlongVarLong_decode (v extra : Nat) (hv : v < 2 ^ 64)
    (hex : extra = 0 ∨ extra = 2) :
    varLongRead (overlongVarLong v extra) = .ok (v, []) := by
  have hmap : overlongVarLong v extra =
      ([v % 128, v / 128 % 128, v / 16384 % 128, v / 2097152 % 128,
        v / 268435456 % 128, v / 34359738368 % 128, v / 4398046511104 % 128,
        v / 562949953421312 % 128, v / 72057594037927936 % 128].map (· + 128))
        ++ [v / 9223372036854775808 + extra] := by
    simp [overlongVarLong]
  have hds : ∀ d ∈ [v % 128, v / 128 % 128, v / 16384 % 128, v / 2097152 % 128,
      v / 268435456 % 128, v / 34359738368 % 128, v / 4398046511104 % 128,
      v / 562949953421312 % 128, v / 72057594037927936 % 128], d < 128 := by
    intro d hd
    simp only [List.mem_cons, List.not_mem_nil, or_false] at hd
    rcases hd with rfl | rfl | rfl | rfl | rfl | rfl | rfl | rfl | rfl <;> omega
  have h1 := varLongLoop_contDigits
    [v % 128, v / 128 % 128, v / 16384 % 128, v / 2097152 % 128,
     v / 268435456 % 128, v / 34359738368 % 128, v / 4398046511104 % 128,
     v / 562949953421312 % 128, v / 72057594037927936 % 128] 0 0
    [v / 9223372036854775808 + extra] hds (by norm_num) (by norm_num)
  rw [varLongRead, hmap, h1.1]
  have hb1 := h1.2
  simp only [List.length_cons, List.length_nil, digitsVal] at hb1 ⊢
  norm_num at hb1 ⊢
  rw [varLongLoop_last (by norm_num) (by omega)]
  have hq : v / 9223372036854775808 < 2 := by omega
  have hlast : (v / 9223372036854775808 + extra) % 256
      = v / 9223372036854775808 + extra := by omega
  rw [hlast, and127]
  have hl2 : (v / 9223372036854775808 + extra) % 128
      = v / 9223372036854775808 + extra := by omega
  rw [hl2, Nat.shiftLeft_eq]
  have hmod : (v / 9223372036854775808 + extra) * 2 ^ 63 % 2 ^ 64
      = v / 9223372036854775808 * 9223372036854775808 := by
    rcases hex with rfl | rfl <;> norm_num <;> omega
  rw [hmod]
  have hlor := lor_mul_pow (a := v % 128 + (v / 128 % 128 * 128 +
      (v / 16384 % 128 * 16384 + (v / 2097152 % 128 * 2097152 +
      (v / 268435456 % 128 * 268435456 + (v / 34359738368 % 128 * 34359738368 +
      (v / 4398046511104 % 128 * 4398046511104 +
      (v / 562949953421312 % 128 * 562949953421312 +
      v / 72057594037927936 % 128 * 72057594037927936))))))))
    (v / 9223372036854775808) 63 (by norm_num; omega)
  norm_num at hlor
  rw [hlor]
  congr 1
  congr 1
  omega

/-- C9: VarInt and VarLong decode accept non-minimal encodings within the
maximum byte count — `[0x00]` and `[0x80, 0x00]` both decode to 0, and
for every in-range value two distinct byte sequences decode to it, so
decode is not injective on accepted inputs. -/
theorem varint_nonminimal_accepted :
    (varIntRead [0] = .ok (0, []) ∧ varIntRead [128, 0] = .ok (0, []) ∧
      ([0] : Bytes) ≠ [128, 0]) ∧
    (∀ v : Nat, v < 2 ^ 32 →
      varIntRead (overlongVarInt v 0) = .ok (v, []) ∧
      varIntRead (overlongVarInt v 16) = .ok (v, []) ∧
      overlongVarInt v 0 ≠ overlongVarInt v 16) ∧
    (∀ v : Nat, v < 2 ^ 64 →
      varLongRead (overlongVarLong v 0) = .ok (v, []) ∧
      varLongRead (overlongVarLong v 2) = .ok (v, []) ∧
      overlongVarLong v 0 ≠ overlongVarLong v 2) := by
  refine ⟨⟨rfl, rfl, by simp⟩, ?_, ?_⟩
  · intro v hv
    refine ⟨overlongVarInt_decode v 0 hv (Or.inl rfl),
      overlongVarInt_decode v 16 hv (Or.inr rfl), ?_⟩
    intro h
    simp only [overlongVarInt, List.cons.injEq] at h
    omega
  · intro v hv
    refine ⟨overlongVarLong_decode v 0 hv (Or.inl rfl),
      overlongVarLong_decode v 2 hv (Or.inr rfl), ?_⟩
    intro h
    simp only [overlongVarLong, List.cons.injEq] at h
    omega

/-- C9 witness: two distinct five-byte sequences both decoding to 1. -/
theorem varint_nonminimal_accepted_witness :
    varIntRead (overlongVarInt 1 0) = .ok (1, []) ∧
    varIntRead (overlongVarInt 1 16) = .ok (1, []) ∧
    overlongVarInt 1 0 ≠ overlongVarInt 1 16 := by
  exact varint_nonminimal_accepted.2.1 1 (by norm_num)

/-- C1 counterexample: the round-trip fails for a constructible string of
32768 bytes — encoding succeeds (no length check in the writer), but
decoding the bytes it produced fails with the length-exceeded error
instead of yielding the value back. -/
theorem string_roundtrip_fails_over_max :
    stringRead (encPure stringWrite (List.replicate 32768 97))
      = .error (.stringLengthExceeded 32768 32767) := by
  have henc : encPure stringWrite (List.replicate 32768 97)
      = varEncBytes 32768 ++ List.replicate 32768 97 := by
    rw [encPure_stringWrite _
      (fun b hb => by have := List.eq_of_mem_replicate hb; omega)]
    rw [List.length_replicate]
    rw [Nat.mod_eq_of_lt (by norm_num : (32768 : Nat) < 2 ^ 32)]
  rw [henc, varEncBytes_32768]
  have hvr : varIntRead ([128, 128, 2] ++ List.replicate 32768 97)
      = .ok (32768, List.replicate 32768 97) := rfl
  simp only [stringRead, hvr]
  rw [if_pos (by norm_num)]

/-- C1 amended: decoding the bytes produced by encoding yields the value
back for every supported type on its constructible domain, with strings
restricted to at most 32767 UTF-8 bytes and list/map entry counts below
`2 ^ 32` (floats compared as IEEE bit patterns, maps as their set of
key-value entries): VarInt, VarLong, u8, i8, u16, u32, u64, i16, i32,
i64, f32, f64, bool and String round-trip, and Vec, Option and HashMap
round-trip whenever their element codecs do.  Strings over 32767 bytes
encode successfully but fail to decode. -/
theorem roundtrip_all_supported_types :
    (∀ (n : Nat) (rest : Bytes), n < 2 ^ 32 →
      varIntRead (encPure varIntWrite n ++ rest) = .ok (n, rest)) ∧
    (∀ (n : Nat) (rest : Bytes), n < 2 ^ 64 →
      varLongRead (encPure varLongWrite n ++ rest) = .ok (n, rest)) ∧
    (∀ (n : Nat) (rest : Bytes), n < 2 ^ 8 →
      u8Read (encPure u8Write n ++ rest) = .ok (n, rest)) ∧
    (∀ (v : Int) (rest : Bytes), -2 ^ 7 ≤ v → v < 2 ^ 7 →
      i8Read (encPure i8Write v ++ rest) = .ok (v, rest)) ∧
    (∀ (n : Nat) (rest : Bytes), n < 2 ^ 16 →
      u16Read (encPure u16Write n ++ rest) = .ok (n, rest)) ∧
    (∀ (n : Nat) (rest : Bytes), n < 2 ^ 32 →
      u32Read (encPure u32Write n ++ rest) = .ok (n, rest)) ∧
    (∀ (n : Nat) (rest : Bytes), n < 2 ^ 64 →
      u64Read (encPure u64Write n ++ rest) = .ok (n, rest)) ∧
    (∀ (v : Int) (rest : Bytes), -2 ^ 15 ≤ v → v < 2 ^ 15 →
      i16Read (encPure i16Write v ++ rest) = .ok (v, rest)) ∧
    (∀ (v : Int) (rest : Bytes), -2 ^ 31 ≤ v → v < 2 ^ 31 →
      i32Read (encPure i32Write v ++ rest) = .ok (v, rest)) ∧
    (∀ (v : Int) (rest : Bytes), -2 ^ 63 ≤ v → v < 2 ^ 63 →
      i64Read (encPure i64Write v ++ rest) = .ok (v, rest)) ∧
    (∀ (bits : Nat) (rest : Bytes), bits < 2 ^ 32 →
      f32Read (encPure f32Write bits ++ rest) = .ok (bits, rest)) ∧
    (∀ (bits : Nat) (rest : Bytes), bits < 2 ^ 64 →
      f64Read (encPure f64Write bits ++ rest) = .ok (bits, rest)) ∧
    (∀ (v : Bool) (rest : Bytes),
      boolRead (encPure boolWrite v ++ rest) = .ok (v, rest)) ∧
    (∀ (s : List Nat) (rest : Bytes), (∀ b ∈ s, b < 256) → validUtf8 s = true →
      s.length ≤ 32767 →
      stringRead (encPure stringWrite s ++ rest) = .ok (s, rest)) ∧
    (∀ (α : Type) (w : α → Sink → WRes) (rd : Bytes → Except Err (α × Bytes))
      (eb : α → Bytes) (P : α → Prop),
      (∀ x buf, P x → w x ⟨buf, none⟩ = .ok ⟨buf ++ eb x, none⟩) →
      (∀ x rest, P x → rd (eb x ++ rest) = .ok (x, rest)) →
      ∀ (l : List α) (buf : List Nat) (rest : Bytes),
        (∀ x ∈ l, P x) → l.length < 2 ^ 32 →
        vecWrite w l ⟨buf, none⟩ =
          .ok ⟨buf ++ varEncBytes l.length ++ l.flatMap eb, none⟩ ∧
        vecRead rd (varEncBytes l.length ++ l.flatMap eb ++ rest) = .ok (l, rest)) ∧
    (∀ (α : Type) (w : α → Sink → WRes) (rd : Bytes → Except Err (α × Bytes))
      (eb : α → Bytes) (P : α → Prop),
      (∀ x buf, P x → w x ⟨buf, none⟩ = .ok ⟨buf ++ eb x, none⟩) →
      (∀ x rest, P x → rd (eb x ++ rest) = .ok (x, rest)) →
      (∀ buf : List Nat, optionWrite w none ⟨buf, none⟩ = .ok ⟨buf ++ [0], none⟩) ∧
      (∀ (x : α) (buf : List Nat), P x →
        optionWrite w (some x) ⟨buf, none⟩ = .ok ⟨buf ++ 1 :: eb x, none⟩) ∧
      (∀ rest : Bytes, optionRead rd ([0] ++ rest) = .ok (none, rest)) ∧
      (∀ (x : α) (rest : Bytes), P x →
        optionRead rd (1 :: eb x ++ rest) = .ok (some x, rest))) ∧
    (∀ (κ ν : Type) (dk : DecidableEq κ)
      (wk : κ → Sink → WRes) (wv : ν → Sink → WRes)
      (rk : Bytes → Except Err (κ × Bytes)) (rv : Bytes → Except Err (ν × Bytes))
      (ebk : κ → Bytes) (ebv : ν → Bytes) (Pk : κ → Prop) (Pv : ν → Prop),
      (∀ k buf, Pk k → wk k ⟨buf, none⟩ = .ok ⟨buf ++ ebk k, none⟩) →
      (∀ v buf, Pv v → wv v ⟨buf, none⟩ = .ok ⟨buf ++ ebv v, none⟩) →
      (∀ k rest, Pk k → rk (ebk k ++ rest) = .ok (k, rest)) →
      (∀ v rest, Pv v → rv (ebv v ++ rest) = .ok (v, rest)) →
      ∀ (l : Entries κ ν) (buf : List Nat) (rest : Bytes),
        (∀ e ∈ l, Pk e.1 ∧ Pv e.2) → (l.map Prod.fst).Nodup → l.length < 2 ^ 32 →
        mapWrite wk wv l ⟨buf, none⟩ =
          .ok ⟨buf ++ varEncBytes l.length ++
            l.flatMap (fun e => ebk e.1 ++ ebv e.2), none⟩ ∧
        @mapRead κ ν dk rk rv (varEncBytes l.length ++
          l.flatMap (fun e => ebk e.1 ++ ebv e.2) ++ rest) = .ok (l, rest)) := by
  refine ⟨?_, ?_, ?_, ?_, ?_, ?_, ?_, ?_, ?_, ?_, ?_, ?_, ?_, ?_, ?_, ?_, ?_⟩
  · intro n rest h
    rw [encPure_varIntWrite]
    exact varIntRead_enc h rest
  · intro n rest h
    rw [encPure_varLongWrite]
    exact varLongRead_enc h rest
  · intro n rest h
    exact u8Read_enc h rest
  · intro v rest h1 h2
    exact i8Read_enc (by omega) (by omega) rest
  · intro n rest h
    exact u16Read_enc h rest
  · intro n rest h
    exact u32Read_enc h rest
  · intro n rest h
    exact u64Read_enc h rest
  · intro v rest h1 h2
    exact i16Read_enc h1 h2 rest
  · intro v rest h1 h2
    exact i32Read_enc h1 h2 rest
  · intro v rest h1 h2
    exact i64Read_enc h1 h2 rest
  · intro bits rest h
    exact u32Read_enc h rest
  · intro bits rest h
    exact u64Read_enc h rest
  · intro v rest
    exact boolRead_enc v rest
  · intro s rest hb hutf hlen
    exact stringRead_enc s hb hutf hlen rest
  · intro α w rd eb P hw hrt l buf rest hP hlen
    constructor
    · have h := vecWrite_unbounded hw l buf hP
      rwa [Nat.mod_eq_of_lt hlen] at h
    · exact vecRead_enc hrt l rest hP hlen
  · intro α w rd eb P hw hrt
    refine ⟨?_, ?_, ?_, ?_⟩
    · intro buf
      exact optionWrite_none_unbounded w buf
    · intro x buf hP
      exact optionWrite_some_unbounded hw x buf hP
    · intro rest
      exact optionRead_none_enc rd rest
    · intro x rest hP
      exact optionRead_some_enc hrt x rest hP
  · intro κ ν dk wk wv rk rv ebk ebv Pk Pv hwk hwv hrtk hrtv l buf rest hP hnd hlen
    constructor
    · have h := mapWrite_unbounded hwk hwv l buf hP
      rwa [Nat.mod_eq_of_lt hlen] at h
    · exact mapRead_enc hrtk hrtv l rest hP hnd hlen

/-- C1 witness: representative round-trips at concrete values — a VarInt,
a negative i16, a boolean, a two-element byte vector and a one-entry map. -/
theorem roundtrip_all_supported_types_witness :
    varIntRead (encPure varIntWrite 300 ++ [7]) = .ok (300, [7]) ∧
    i16Read (encPure i16Write (-5) ++ []) = .ok (-5, []) ∧
    boolRead (encPure boolWrite true ++ []) = .ok (true, []) ∧
    vecRead u8Read (varEncBytes ([9, 10] : List Nat).length ++
      ([9, 10] : List Nat).flatMap (fun x => [x]) ++ []) = .ok ([9, 10], []) ∧
    @mapRead Nat Nat instDecidableEqNat u8Read u8Read
      (varEncBytes ([(25, 7)] : Entries Nat Nat).length ++
        ([(25, 7)] : Entries Nat Nat).flatMap (fun e => [e.1] ++ [e.2]) ++ [])
      = .ok ([(25, 7)], []) := by
  have hu8w : ∀ (x : Nat) (buf : List Nat), x < 256 →
      u8Write x ⟨buf, none⟩ = .ok ⟨buf ++ [x], none⟩ := by
    intro x buf hx
    rw [u8Write_unbounded, Nat.mod_eq_of_lt hx]
  have hu8r : ∀ (x : Nat) (rest : Bytes), x < 256 →
      u8Read ([x] ++ rest) = .ok (x, rest) := by
    intro x rest hx
    have h := u8Read_enc hx rest
    rwa [encPure_u8Write, Nat.mod_eq_of_lt hx] at h
  refine ⟨?_, ?_, ?_, ?_, ?_⟩
  · exact roundtrip_all_supported_types.1 300 [7] (by norm_num)
  · exact roundtrip_all_supported_types.2.2.2.2.2.2.2.1 (-5) [] (by norm_num)
      (by norm_num)
  · exact roundtrip_all_supported_types.2.2.2.2.2.2.2.2.2.2.2.2.1 true []
  · exact (roundtrip_all_supported_types.2.2.2.2.2.2.2.2.2.2.2.2.2.2.1
      Nat u8Write u8Read (fun x => [x]) (fun x => x < 256) hu8w hu8r
      [9, 10] [] [] (by intro x hx; simp at hx; omega) (by norm_num)).2
  · exact (roundtrip_all_supported_types.2.2.2.2.2.2.2.2.2.2.2.2.2.2.2.2
      Nat Nat instDecidableEqNat u8Write u8Write u8Read u8Read
      (fun k => [k]) (fun v => [v]) (fun k => k < 256) (fun v => v < 256)
      hu8w hu8w hu8r hu8r [(25, 7)] [] []
      (by
        intro e he
        simp only [List.mem_singleton] at he
        subst he
        exact ⟨by norm_num, by norm_num⟩) (by simp) (by norm_num)).2

end Wsbps
